import Mathlib

/-!
# pkg/config: ParameterViper

A shallow embedding of `pkg/config/paramviper.go`: a viper configuration store
layered under the AWS SSM parameter store.  The Go standard-library functions
the package calls (`strings.Split`, `path.Join`, `path.Clean`) are embedded
from their Go sources, loop by loop.

A Go string is a sequence of bytes.  Here it is a `List Char`, one `Char` per
byte; the code only ever compares a byte with `/`, `.` and `,`.
-/

namespace Config

/-- A Go string: its bytes, in order. -/
abbrev GoString := List Char

/-! ## strings.Split -/

/-- The loop of `strings.genSplit` for a one-byte separator: `n` is the number
of slots still to fill before the last one, `Index(s, sep) < 0` is an empty
`dropWhile`, `s[:m]` is the `takeWhile` and `s[m+1:]` the rest. -/
def genSplitLoop (sep : Char) : Nat → GoString → List GoString
  | 0, s => [s]
  | n + 1, s =>
    match s.dropWhile (fun c => c ≠ sep) with
    | [] => [s]
    | _ :: rest => s.takeWhile (fun c => c ≠ sep) :: genSplitLoop sep n rest

/-- The call `strings.Split(s, sep)` for a one-byte separator `sep`:
`genSplit(s, sep, 0, -1)`, where `n = Count(s, sep) + 1`. -/
def stringsSplit (sep : Char) (s : GoString) : List GoString :=
  genSplitLoop sep (s.count sep) s

/-! ## path.Clean and path.Join -/

/-- The scan `for out.w > dotdot && out.index(out.w) != '/' { out.w-- }` of
`path.Clean`, started at write index `w`: the index it stops at.  Bytes at and
beyond `w` stay readable in a `lazybuf`, so the scan reads `buf` as it was
before the truncation. -/
def backtrack (buf : GoString) (dotdot : Nat) : Nat → Nat
  | 0 => 0
  | w + 1 =>
    if dotdot < w + 1 ∧ buf[w + 1]? ≠ some '/' then backtrack buf dotdot w else w + 1

/-- The main loop `for r < n` of `path.Clean`.  `rest` is `path[r:]`, `out` is
the written part `buf[:w]` of the `lazybuf`.  Every iteration consumes at
least one byte, so `path.length` iterations are enough (`cleanLoop_terminates`);
`none` is the model running out of iterations. -/
def cleanLoop (rooted : Bool) : Nat → GoString → GoString → Nat → Option GoString
  | _, [], out, _ => some out
  | 0, _ :: _, _, _ => none
  | fuel + 1, c :: rest, out, dotdot =>
    if c = '/' then
      -- empty path element
      cleanLoop rooted fuel rest out dotdot
    else if c = '.' ∧ (rest = [] ∨ rest.head? = some '/') then
      -- . element
      cleanLoop rooted fuel rest out dotdot
    else if c = '.' ∧ rest.head? = some '.' ∧
        (rest.tail = [] ∨ rest.tail.head? = some '/') then
      -- .. element: remove to last /
      if dotdot < out.length then
        cleanLoop rooted fuel rest.tail
          (out.take (backtrack out dotdot (out.length - 1))) dotdot
      else if rooted = false then
        let out1 := (if 0 < out.length then out ++ ['/'] else out) ++ ['.', '.']
        cleanLoop rooted fuel rest.tail out1 out1.length
      else
        cleanLoop rooted fuel rest.tail out dotdot
    else
      -- real path element: add slash if needed, copy element
      let out1 :=
        if (rooted = true ∧ out.length ≠ 1) ∨ (rooted = false ∧ out.length ≠ 0)
        then out ++ ['/'] else out
      cleanLoop rooted fuel ((c :: rest).dropWhile (fun b => b ≠ '/'))
        (out1 ++ (c :: rest).takeWhile (fun b => b ≠ '/')) dotdot

/-- The function `path.Clean`.  The loop is given `path.length` iterations, so
its `none` does not occur (`cleanLoop_terminates`, `pathClean_eq`). -/
def pathClean (path : GoString) : GoString :=
  if path = [] then ['.']
  else
    let rooted : Bool := decide (path.head? = some '/')
    match cleanLoop rooted path.length
        (if rooted then path.tail else path)
        (if rooted then ['/'] else [])
        (if rooted then 1 else 0) with
    | some out => if out.length = 0 then ['.'] else out
    | none => []

/-- The loop `for _, e := range elem` of `path.Join`, building `buf`. -/
def joinLoop : List GoString → GoString → GoString
  | [], buf => buf
  | e :: elem, buf =>
    if 0 < buf.length ∨ e ≠ [] then
      joinLoop elem ((if 0 < buf.length then buf ++ ['/'] else buf) ++ e)
    else
      joinLoop elem buf

/-- The function `path.Join`. -/
def pathJoin (elem : List GoString) : GoString :=
  if (elem.map List.length).sum = 0 then []
  else pathClean (joinLoop elem [])

/-! ## The collaborators -/

namespace ssm

/-- The constant `ssm.ErrCodeInternalServerError` of the AWS SDK. -/
def ErrCodeInternalServerError : GoString := "InternalServerError".toList

/-- The constant `ssm.ErrCodeParameterNotFound` of the AWS SDK. -/
def ErrCodeParameterNotFound : GoString := "ParameterNotFound".toList

/-- The struct `ssm.GetParameterInput`; `aws.String` and `aws.Bool` give
pointers that are never nil. -/
structure GetParameterInput where
  Name : GoString
  WithDecryption : Bool
  deriving DecidableEq

/-- The struct `ssm.Parameter`, with the one field this package reads; `none`
is a nil `*string`. -/
structure Parameter where
  Value : Option GoString
  deriving DecidableEq

/-- The struct `ssm.GetParameterOutput`; `none` is a nil `*ssm.Parameter`. -/
structure GetParameterOutput where
  Parameter : Option Parameter
  deriving DecidableEq

end ssm

/-- A non-nil `error` returned by the remote collaborator, as `getParamater`
observes it: `code` is `aerr.Code()` when the value implements `awserr.Error`
and `none` when the type assertion fails; `text` is what `%v` prints. -/
structure RemoteError where
  code : Option GoString
  text : GoString
  deriving DecidableEq

/-- The interface `parameterGetter`: one call of `GetParameter` gives a
`*ssm.GetParameterOutput` (`none` is nil) and an `error` (`none` is nil). -/
abbrev parameterGetter :=
  ssm.GetParameterInput → Option ssm.GetParameterOutput × Option RemoteError

namespace viper

/-- The two read operations of `*viper.Viper` this package delegates to. -/
structure Viper where
  GetString : GoString → GoString
  GetStringSlice : GoString → List GoString

end viper

/-- A non-nil `error` returned by `getParamater`: the package-level sentinel
`errParameterNotFound`, compared by identity, or a fresh value made by
`fmt.Errorf` with the given message. -/
inductive ParamError where
  | errParameterNotFound
  | errorf (msg : GoString)
  deriving DecidableEq

/-- The method `Error()` of a `ParamError`. -/
def ParamError.Error : ParamError → GoString
  | .errParameterNotFound => "Value not found in parameter store".toList
  | .errorf msg => msg

/-- A run-time panic of the Go code. -/
inductive Panic where
  | nilDereference
  deriving DecidableEq

deriving instance DecidableEq for Except

/-- The struct `ParameterViper`, with both collaborators present, as
`NewParameterViper` builds it. -/
structure ParameterViper where
  parameterPrefix : GoString
  parameterStore : parameterGetter
  Viper : viper.Viper

/-! ## The package -/

/-- The method `SetParameterStorePrefix`. -/
def ParameterViper.SetParameterStorePrefix (p : ParameterViper) (pfx : GoString) :
    ParameterViper :=
  { p with parameterPrefix := pfx }

/-- The method `translateViperPath`. -/
def ParameterViper.translateViperPath (p : ParameterViper) (viperPath : GoString) :
    GoString :=
  let viperParts := stringsSplit '.' viperPath
  let prefixParts := stringsSplit '/' p.parameterPrefix
  let parameterParts := prefixParts ++ viperParts
  '/' :: pathJoin parameterParts

/-- The method `getParamater`.  The `log.Printf` line is not modelled.  Reading
`out.Parameter` through a nil `out` panics. -/
def ParameterViper.getParamater (p : ParameterViper) (path : GoString) :
    Except Panic (Option ssm.Parameter × Option ParamError) :=
  match p.parameterStore { Name := path, WithDecryption := true } with
  | (_, some err) =>
    match err.code with
    | some code =>
      if code = ssm.ErrCodeInternalServerError then
        .ok (none, some (.errorf
          ("parameter store returned internal server error: ".toList ++ err.text)))
      else
        .ok (none, some .errParameterNotFound)
    | none =>
      .ok (none, some (.errorf ("unknown error retrieving parameter: ".toList ++ err.text)))
  | (some out, none) => .ok (out.Parameter, none)
  | (none, none) => .error .nilDereference

/-- The dereference `*param.Value`. -/
def derefValue : Option ssm.Parameter → Except Panic GoString
  | some { Value := some v } => .ok v
  | _ => .error .nilDereference

/-- The method `GetString`. -/
def ParameterViper.GetString (p : ParameterViper) (key : GoString) :
    Except Panic GoString :=
  match p.getParamater (p.translateViperPath key) with
  | .error e => .error e
  | .ok (_, some _) => .ok (p.Viper.GetString key)
  | .ok (param, none) => derefValue param

/-- The method `GetStringSlice`. -/
def ParameterViper.GetStringSlice (p : ParameterViper) (key : GoString) :
    Except Panic (List GoString) :=
  match p.getParamater (p.translateViperPath key) with
  | .error e => .error e
  | .ok (_, some _) => .ok (p.Viper.GetStringSlice key)
  | .ok (param, none) =>
    match derefValue param with
    | .error e => .error e
    | .ok v => .ok (stringsSplit ',' v)

/-! ## Test doubles of paramviper_test.go -/

namespace awserr

/-- The call `awserr.New(code, message, nil)`: its `Error()` is the code, a
colon, a blank and the message. -/
def New (code message : GoString) : RemoteError :=
  { code := some code, text := code ++ (": ".toList ++ message) }

end awserr

/-- The struct `testReturnValue` of the test file. -/
structure testReturnValue where
  Parameter : Option ssm.Parameter
  Err : Option RemoteError

/-- The method `GetParameter` of `testParameterStore`; `Values` is the map, as
the list of its entries. -/
def testParameterStore (Values : List (GoString × testReturnValue)) : parameterGetter :=
  fun i =>
    match Values.lookup i.Name with
    | none => (none, some (awserr.New ssm.ErrCodeParameterNotFound []))
    | some result => (some { Parameter := result.Parameter }, result.Err)

/-- The call `viper.New()`: a store with nothing set, whose reads give the zero
values. -/
def viper.New : viper.Viper :=
  { GetString := fun _ => [], GetStringSlice := fun _ => [] }

/-! ## Path elements: what `path.Clean` does, element by element -/

/-- The effect of one `/`-separated path element `seg` on the state of
`cleanLoop`, the buffer `out` and the index `dotdot`. -/
def cleanElem (rooted : Bool) (st : GoString × Nat) (seg : GoString) : GoString × Nat :=
  if seg = [] ∨ seg = ['.'] then st
  else if seg = ['.', '.'] then
    if st.2 < st.1.length then
      (st.1.take (backtrack st.1 st.2 (st.1.length - 1)), st.2)
    else if rooted = false then
      ((if 0 < st.1.length then st.1 ++ ['/'] else st.1) ++ ['.', '.'],
        ((if 0 < st.1.length then st.1 ++ ['/'] else st.1) ++ ['.', '.']).length)
    else st
  else
    ((if (rooted = true ∧ st.1.length ≠ 1) ∨ (rooted = false ∧ st.1.length ≠ 0)
      then st.1 ++ ['/'] else st.1) ++ seg, st.2)

/-- The path elements after the first one of `d`, where `d` is empty or
starts with the `/` that ends the first element. -/
def restSegs (d : GoString) : List GoString :=
  match d with
  | [] => []
  | _ :: t => stringsSplit '/' t

/-- The buffer of `path.Clean` that holds the kept elements `stack`: a leading
`/` when the path is rooted, then the elements with `/` between them. -/
def render (rooted : Bool) (stack : List GoString) : GoString :=
  (if rooted then ['/'] else []) ++ List.intercalate ['/'] stack

/-- The effect of one path element on the kept elements: `stack` are the
elements kept so far and the first `keep` of them can no longer be removed
(they are a leading run of `..`). -/
def stackElem (rooted : Bool) (st : List GoString × Nat) (seg : GoString) :
    List GoString × Nat :=
  if seg = [] ∨ seg = ['.'] then st
  else if seg = ['.', '.'] then
    if st.2 < st.1.length then (st.1.dropLast, st.2)
    else if rooted = false then (st.1 ++ [seg], st.1.length + 1)
    else st
  else (st.1 ++ [seg], st.2)

/-- The elements `path.Clean` keeps of the path elements `segs`. -/
def cleanStack (rooted : Bool) (segs : List GoString) : List GoString :=
  (segs.foldl (stackElem rooted) ([], 0)).1

/-- The buffer state `b` of `cleanLoop` holds the kept elements `s`. -/
def Holds (rooted : Bool) (b : GoString × Nat) (s : List GoString × Nat) : Prop :=
  b.1 = render rooted s.1 ∧ b.2 = (render rooted (s.1.take s.2)).length ∧
    s.2 ≤ s.1.length ∧ ∀ seg ∈ s.1, seg ≠ [] ∧ '/' ∉ seg

/-- The lexical form `path.Join` gives the elements `parts`: nothing when all
are empty; otherwise the elements are cut at every `/`, empty and `.` pieces
are dropped, a `..` removes the piece kept before it (with no removable piece
before it, it is kept in a path that is not rooted and dropped in a rooted
one), the kept pieces are joined with `/` after a leading `/` when the first
non-empty element starts with one, and `.` stands for an empty result. -/
def joinedForm (parts : List GoString) : GoString :=
  if parts.flatten = [] then []
  else
    let rooted : Bool := decide (parts.flatten.head? = some '/')
    let out := render rooted (cleanStack rooted (parts.flatMap (stringsSplit '/')))
    if out = [] then ['.'] else out

/-! ## Facts about strings.Split -/

theorem stringsSplit_nil (sep : Char) : stringsSplit sep [] = [[]] := by
  simp [stringsSplit, genSplitLoop]

theorem stringsSplit_cons_sep (sep : Char) (s : GoString) :
    stringsSplit sep (sep :: s) = [] :: stringsSplit sep s := by
  simp [stringsSplit, genSplitLoop]

theorem stringsSplit_cons_ne {sep c : Char} (h : c ≠ sep) (s : GoString) :
    stringsSplit sep (c :: s) =
      (c :: (stringsSplit sep s).headD []) :: (stringsSplit sep s).tail := by
  unfold stringsSplit
  have hc : (c :: s).count sep = s.count sep := by
    simp [List.count_cons, h]
  rw [hc]
  cases hn : s.count sep with
  | zero => simp [genSplitLoop]
  | succ m =>
    simp only [genSplitLoop]
    have hd : (c :: s).dropWhile (fun c => decide (c ≠ sep)) =
        s.dropWhile (fun c => decide (c ≠ sep)) := by
      simp [List.dropWhile_cons, h]
    have ht : (c :: s).takeWhile (fun c => decide (c ≠ sep)) =
        c :: s.takeWhile (fun c => decide (c ≠ sep)) := by
      simp [List.takeWhile_cons, h]
    rw [hd, ht]
    cases s.dropWhile (fun c => decide (c ≠ sep)) <;> simp

theorem stringsSplit_ne_nil (sep : Char) (s : GoString) : stringsSplit sep s ≠ [] := by
  cases s with
  | nil => simp [stringsSplit_nil]
  | cons c s =>
    by_cases h : c = sep
    · subst h; simp [stringsSplit_cons_sep]
    · simp [stringsSplit_cons_ne h]

theorem stringsSplit_cons_ne_eq {sep c : Char} (h : c ≠ sep) (s : GoString) :
    ∃ seg segs, stringsSplit sep s = seg :: segs ∧
      stringsSplit sep (c :: s) = (c :: seg) :: segs := by
  cases hs : stringsSplit sep s with
  | nil => exact absurd hs (stringsSplit_ne_nil sep s)
  | cons seg segs =>
    exact ⟨seg, segs, rfl, by rw [stringsSplit_cons_ne h, hs]; rfl⟩

theorem stringsSplit_no_sep (sep : Char) (s : GoString) :
    ∀ seg ∈ stringsSplit sep s, sep ∉ seg := by
  induction s with
  | nil => simp [stringsSplit_nil]
  | cons c s ih =>
    by_cases h : c = sep
    · subst h
      intro seg hseg
      rw [stringsSplit_cons_sep] at hseg
      rcases List.mem_cons.1 hseg with rfl | hseg
      · simp
      · exact ih seg hseg
    · obtain ⟨seg0, segs, h1, h2⟩ := stringsSplit_cons_ne_eq h s
      intro seg hseg
      rw [h2] at hseg
      rw [h1] at ih
      rcases List.mem_cons.1 hseg with rfl | hseg
      · have := ih seg0 (List.mem_cons_self _ _)
        simp only [List.mem_cons, not_or]
        exact ⟨fun e => h e.symm, this⟩
      · exact ih seg (List.mem_cons_of_mem _ hseg)

theorem intercalate_cons_cons (sep : Char) (a b : GoString) (l : List GoString) :
    List.intercalate [sep] (a :: b :: l) = a ++ sep :: List.intercalate [sep] (b :: l) := by
  simp [List.intercalate, List.intersperse]

theorem intercalate_singleton (sep : Char) (a : GoString) :
    List.intercalate [sep] [a] = a := by
  simp [List.intercalate, List.intersperse]

theorem intercalate_cons_of_ne_nil (sep : Char) (a : GoString) {l : List GoString}
    (h : l ≠ []) :
    List.intercalate [sep] (a :: l) = a ++ sep :: List.intercalate [sep] l := by
  cases l with
  | nil => exact absurd rfl h
  | cons b l => exact intercalate_cons_cons sep a b l

theorem intercalate_stringsSplit (sep : Char) (s : GoString) :
    List.intercalate [sep] (stringsSplit sep s) = s := by
  induction s with
  | nil => simp [stringsSplit_nil, intercalate_singleton]
  | cons c s ih =>
    by_cases h : c = sep
    · subst h
      rw [stringsSplit_cons_sep, intercalate_cons_of_ne_nil _ _ (stringsSplit_ne_nil _ _), ih]
      rfl
    · obtain ⟨seg0, segs, h1, h2⟩ := stringsSplit_cons_ne_eq h s
      rw [h2]
      rw [h1] at ih
      cases segs with
      | nil =>
        rw [intercalate_singleton] at ih ⊢
        rw [ih]
      | cons b l =>
        rw [intercalate_cons_cons] at ih ⊢
        rw [← ih]; rfl

theorem stringsSplit_length (sep : Char) (s : GoString) :
    (stringsSplit sep s).length = s.count sep + 1 := by
  induction s with
  | nil => simp [stringsSplit_nil]
  | cons c s ih =>
    by_cases h : c = sep
    · subst h
      simp [stringsSplit_cons_sep, ih]
    · obtain ⟨seg0, segs, h1, h2⟩ := stringsSplit_cons_ne_eq h s
      rw [h2]
      rw [h1] at ih
      simp [List.count_cons, h] at ih ⊢
      exact ih

theorem stringsSplit_append_sep (sep : Char) (s t : GoString) :
    stringsSplit sep (s ++ sep :: t) = stringsSplit sep s ++ stringsSplit sep t := by
  induction s with
  | nil => simp [stringsSplit_nil, stringsSplit_cons_sep]
  | cons c s ih =>
    by_cases h : c = sep
    · subst h
      simp [stringsSplit_cons_sep, ih]
    · obtain ⟨seg0, segs, h1, h2⟩ := stringsSplit_cons_ne_eq h s
      rw [List.cons_append, stringsSplit_cons_ne h, ih, h2, h1]
      simp

theorem stringsSplit_of_not_mem {sep : Char} {s : GoString} (h : sep ∉ s) :
    stringsSplit sep s = [s] := by
  induction s with
  | nil => exact stringsSplit_nil sep
  | cons c s ih =>
    simp only [List.mem_cons, not_or] at h
    have hc : c ≠ sep := fun e => h.1 e.symm
    rw [stringsSplit_cons_ne hc, ih h.2]
    rfl

/-! ## The loop of path.Clean, element by element -/

theorem stringsSplit_takeWhile (s : GoString) :
    stringsSplit '/' s =
      s.takeWhile (fun b => decide (b ≠ '/')) ::
        restSegs (s.dropWhile (fun b => decide (b ≠ '/'))) := by
  induction s with
  | nil => simp [stringsSplit_nil, restSegs]
  | cons c s ih =>
    by_cases h : c = '/'
    · subst h
      simp [stringsSplit_cons_sep, restSegs]
    · rw [stringsSplit_cons_ne h, ih]
      simp [List.takeWhile_cons, List.dropWhile_cons, h]

theorem takeWhile_eq_nil_iff_head (r : GoString) :
    r.takeWhile (fun b => decide (b ≠ '/')) = [] ↔ (r = [] ∨ r.head? = some '/') := by
  cases r with
  | nil => simp
  | cons a r =>
    by_cases h : a = '/' <;> simp [List.takeWhile_cons, h]

theorem dropWhile_of_head {r : GoString} (h : r = [] ∨ r.head? = some '/') :
    r.dropWhile (fun b => decide (b ≠ '/')) = r := by
  cases r with
  | nil => simp
  | cons a r =>
    have : a = '/' := by simpa using h
    simp [List.dropWhile_cons, this]

theorem cleanElem_nil (rooted : Bool) (st : GoString × Nat) :
    cleanElem rooted st [] = st := by
  simp [cleanElem]

theorem foldl_cleanElem_split_of_head (rooted : Bool) (st : GoString × Nat) {d : GoString}
    (h : d = [] ∨ d.head? = some '/') :
    (stringsSplit '/' d).foldl (cleanElem rooted) st =
      (restSegs d).foldl (cleanElem rooted) st := by
  cases d with
  | nil => simp [stringsSplit_nil, restSegs, cleanElem_nil]
  | cons a r =>
    have : a = '/' := by simpa using h
    subst this
    simp [stringsSplit_cons_sep, restSegs, cleanElem_nil]

theorem dropWhile_head (s : GoString) :
    s.dropWhile (fun b => decide (b ≠ '/')) = [] ∨
      (s.dropWhile (fun b => decide (b ≠ '/'))).head? = some '/' := by
  induction s with
  | nil => simp
  | cons a s ih =>
    by_cases h : a = '/'
    · subst h; simp [List.dropWhile_cons]
    · simpa [List.dropWhile_cons, h] using ih

theorem dropWhile_length_le (s : GoString) :
    (s.dropWhile (fun b => decide (b ≠ '/'))).length ≤ s.length :=
  (List.dropWhile_suffix _).length_le

theorem cleanLoop_eq (rooted : Bool) :
    ∀ (fuel : Nat) (rest out : GoString) (dotdot : Nat), rest.length ≤ fuel →
      cleanLoop rooted fuel rest out dotdot =
        some ((stringsSplit '/' rest).foldl (cleanElem rooted) (out, dotdot)).1 := by
  intro fuel
  induction fuel with
  | zero =>
    intro rest out dotdot h
    cases rest with
    | nil => simp [cleanLoop, stringsSplit_nil, cleanElem_nil]
    | cons c r => simp at h
  | succ fuel ih =>
    intro rest out dotdot h
    cases rest with
    | nil => simp [cleanLoop, stringsSplit_nil, cleanElem_nil]
    | cons c r =>
      have hr : r.length ≤ fuel := by simpa using h
      by_cases h1 : c = '/'
      · subst h1
        rw [cleanLoop, if_pos rfl, ih r out dotdot hr, stringsSplit_cons_sep]
        simp [cleanElem_nil]
      · have htw : (c :: r).takeWhile (fun b => decide (b ≠ '/')) =
            c :: r.takeWhile (fun b => decide (b ≠ '/')) := by
          simp [List.takeWhile_cons, h1]
        have hdw : (c :: r).dropWhile (fun b => decide (b ≠ '/')) =
            r.dropWhile (fun b => decide (b ≠ '/')) := by
          simp [List.dropWhile_cons, h1]
        rw [cleanLoop, if_neg h1, stringsSplit_takeWhile (c :: r), List.foldl_cons]
        by_cases h2 : c = '.' ∧ (r = [] ∨ r.head? = some '/')
        · rw [if_pos h2, ih r out dotdot hr, foldl_cleanElem_split_of_head rooted _ h2.2,
            hdw, dropWhile_of_head h2.2, htw, (takeWhile_eq_nil_iff_head r).2 h2.2, h2.1]
          simp [cleanElem]
        · rw [if_neg h2]
          have hseg1 : (c :: r).takeWhile (fun b => decide (b ≠ '/')) ≠ ['.'] := by
            rw [htw]
            intro e
            simp only [List.cons.injEq] at e
            exact h2 ⟨e.1, (takeWhile_eq_nil_iff_head r).1 e.2⟩
          by_cases h3 : c = '.' ∧ r.head? = some '.' ∧
              (r.tail = [] ∨ r.tail.head? = some '/')
          · rw [if_pos h3]
            obtain ⟨hc, hh, ht⟩ := h3
            cases r with
            | nil => simp at hh
            | cons b r2 =>
              have hb : b = '.' := by simpa using hh
              subst hb
              subst hc
              have ht2 : r2 = [] ∨ r2.head? = some '/' := by simpa using ht
              have hr2 : r2.length ≤ fuel := by
                simp at hr; omega
              have hseg : ('.' :: '.' :: r2).takeWhile (fun b => decide (b ≠ '/')) =
                  ['.', '.'] := by
                rw [List.takeWhile_cons_of_pos (by decide), List.takeWhile_cons_of_pos (by decide),
                  (takeWhile_eq_nil_iff_head r2).2 ht2]
              have hdrop : ('.' :: '.' :: r2).dropWhile (fun b => decide (b ≠ '/')) = r2 := by
                rw [List.dropWhile_cons_of_pos (by decide), List.dropWhile_cons_of_pos (by decide),
                  dropWhile_of_head ht2]
              rw [hseg, hdrop, ← foldl_cleanElem_split_of_head rooted _ ht2]
              simp only [List.tail_cons]
              by_cases h4 : dotdot < out.length
              · rw [if_pos h4, ih _ _ _ hr2]
                simp [cleanElem, h4]
              · rw [if_neg h4]
                by_cases h5 : rooted = false
                · rw [if_pos h5, ih _ _ _ hr2]
                  simp [cleanElem, h4, h5]
                · rw [if_neg h5, ih _ _ _ hr2]
                  simp [cleanElem, h4, h5]
          · rw [if_neg h3]
            have hseg2 : (c :: r).takeWhile (fun b => decide (b ≠ '/')) ≠ ['.', '.'] := by
              rw [htw]
              intro e
              simp only [List.cons.injEq] at e
              apply h3
              refine ⟨e.1, ?_⟩
              cases r with
              | nil => simp at e
              | cons b r2 =>
                by_cases hb : b = '/'
                · subst hb; simp [List.takeWhile_cons] at e
                · simp only [List.takeWhile_cons, hb, ne_eq, not_false_eq_true, decide_True,
                    if_true, List.cons.injEq] at e
                  refine ⟨by simp [e.2.1], ?_⟩
                  simpa using (takeWhile_eq_nil_iff_head r2).1 e.2.2
            have hseg0 : (c :: r).takeWhile (fun b => decide (b ≠ '/')) ≠ [] := by
              rw [htw]; simp
            have hlen : ((c :: r).dropWhile (fun b => decide (b ≠ '/'))).length ≤ fuel := by
              rw [hdw]
              exact le_trans (dropWhile_length_le r) hr
            rw [ih _ _ _ hlen, foldl_cleanElem_split_of_head rooted _ (dropWhile_head _)]
            congr 2
            rw [cleanElem, if_neg (not_or.2 ⟨hseg0, hseg1⟩), if_neg hseg2]

theorem cleanLoop_terminates (rooted : Bool) (fuel : Nat) (rest out : GoString)
    (dotdot : Nat) (h : rest.length ≤ fuel) :
    (cleanLoop rooted fuel rest out dotdot).isSome = true := by
  rw [cleanLoop_eq rooted fuel rest out dotdot h]
  rfl

/-! ## The buffer of path.Clean as a stack of kept elements -/

theorem intercalate_append_singleton (sep : Char) (A : List GoString) (s : GoString) :
    List.intercalate [sep] (A ++ [s]) =
      if A = [] then s else List.intercalate [sep] A ++ sep :: s := by
  induction A with
  | nil => simp [intercalate_singleton]
  | cons a A ih =>
    rw [List.cons_append, intercalate_cons_of_ne_nil sep a (by simp), ih]
    by_cases hA : A = []
    · subst hA; simp [intercalate_singleton]
    · rw [if_neg hA, if_neg (by simp), intercalate_cons_of_ne_nil sep a hA]
      simp

theorem render_append_singleton (rooted : Bool) (A : List GoString) (s : GoString) :
    render rooted (A ++ [s]) =
      if A = [] then render rooted [] ++ s else render rooted A ++ '/' :: s := by
  unfold render
  rw [intercalate_append_singleton]
  by_cases hA : A = []
  · subst hA; simp [List.intercalate]
  · simp [hA]

theorem render_nil (rooted : Bool) : render rooted [] = if rooted then ['/'] else [] := by
  simp [render, List.intercalate]

theorem render_length_lt_append (rooted : Bool) (A : List GoString) {s : GoString}
    (hs : s ≠ []) : (render rooted A).length < (render rooted (A ++ [s])).length := by
  rw [render_append_singleton]
  have : 0 < s.length := List.length_pos.2 hs
  by_cases hA : A = []
  · subst hA; simp; omega
  · simp [hA]

theorem render_take_length_le (rooted : Bool) :
    ∀ (stack : List GoString) (m : Nat), (∀ seg ∈ stack, seg ≠ [] ∧ '/' ∉ seg) →
      (render rooted (stack.take m)).length ≤ (render rooted stack).length := by
  intro stack
  induction stack using List.reverseRecOn with
  | nil => intro m _; simp
  | append_singleton A s ih =>
    intro m h
    have hA : ∀ seg ∈ A, seg ≠ [] ∧ '/' ∉ seg := fun seg hseg =>
      h seg (List.mem_append_left _ hseg)
    have hs : s ≠ [] := (h s (by simp)).1
    by_cases hm : m ≤ A.length
    · rw [List.take_append_of_le_length hm]
      exact le_trans (ih m hA) (le_of_lt (render_length_lt_append rooted A hs))
    · rw [List.take_of_length_le (by simp; omega)]

theorem render_take_length_lt_iff (rooted : Bool) (stack : List GoString) (m : Nat)
    (h : ∀ seg ∈ stack, seg ≠ [] ∧ '/' ∉ seg) (hm : m ≤ stack.length) :
    (render rooted (stack.take m)).length < (render rooted stack).length ↔
      m < stack.length := by
  constructor
  · intro hlt
    by_contra hge
    have : m = stack.length := by omega
    rw [this, List.take_length] at hlt
    exact lt_irrefl _ hlt
  · intro hlt
    induction stack using List.reverseRecOn with
    | nil => simp at hlt
    | append_singleton A s _ =>
      have hA : ∀ seg ∈ A, seg ≠ [] ∧ '/' ∉ seg := fun seg hseg =>
        h seg (List.mem_append_left _ hseg)
      have hs : s ≠ [] := (h s (by simp)).1
      have hmA : m ≤ A.length := by simp at hlt; omega
      rw [List.take_append_of_le_length hmA]
      exact lt_of_le_of_lt (render_take_length_le rooted A m hA)
        (render_length_lt_append rooted A hs)

theorem backtrack_of_le (buf : GoString) {dotdot w : Nat} (h : w ≤ dotdot) :
    backtrack buf dotdot w = w := by
  cases w with
  | zero => rfl
  | succ w =>
    rw [backtrack, if_neg]
    intro hc
    omega

theorem backtrack_at_slash (buf : GoString) (dotdot w : Nat) (h : buf[w]? = some '/') :
    backtrack buf dotdot w = w := by
  cases w with
  | zero => rfl
  | succ w =>
    rw [backtrack, if_neg]
    intro hc
    exact hc.2 h

theorem backtrack_through (B s : GoString) (dotdot : Nat) (hs : '/' ∉ s)
    (hd : dotdot ≤ B.length) :
    ∀ j, j < s.length → backtrack (B ++ s) dotdot (B.length + j) =
      backtrack (B ++ s) dotdot B.length := by
  intro j
  induction j with
  | zero => intro _; rfl
  | succ j ih =>
    intro hj
    have hget : (B ++ s)[B.length + (j + 1)]? = some (s[j + 1]) := by
      rw [List.getElem?_append_right (by omega)]
      simp [List.getElem?_eq_getElem hj]
    have hne : s[j + 1] ≠ '/' := by
      intro e
      apply hs
      rw [← e]
      exact List.getElem_mem _
    show backtrack (B ++ s) dotdot (B.length + j + 1) = _
    rw [backtrack, if_pos, ih (by omega)]
    refine ⟨by omega, ?_⟩
    rw [show B.length + j + 1 = B.length + (j + 1) by omega, hget]
    simpa using hne

theorem backtrack_pop (rooted : Bool) (A : List GoString) (s : GoString) (m : Nat)
    (hs : s ≠ []) (hs2 : '/' ∉ s) (hA : ∀ seg ∈ A, seg ≠ [] ∧ '/' ∉ seg)
    (hm : m ≤ A.length) :
    (render rooted (A ++ [s])).take
        (backtrack (render rooted (A ++ [s])) (render rooted (A.take m)).length
          ((render rooted (A ++ [s])).length - 1)) =
      render rooted A := by
  have hpos : 0 < s.length := List.length_pos.2 hs
  have hdd : (render rooted (A.take m)).length ≤ (render rooted A).length :=
    render_take_length_le rooted A m hA
  rw [render_append_singleton]
  by_cases hA0 : A = []
  · subst hA0
    rw [if_pos rfl]
    simp only [List.take_nil] at hdd ⊢
    have h1 : (render rooted [] ++ s).length - 1 = (render rooted []).length + (s.length - 1) := by
      simp; omega
    rw [h1, backtrack_through _ _ _ hs2 (le_refl _) _ (by omega),
      backtrack_of_le _ (le_refl _)]
    simp
  · rw [if_neg hA0]
    have h1 : (render rooted A ++ '/' :: s).length - 1 =
        (render rooted A ++ ['/']).length + (s.length - 1) := by
      simp; omega
    have h2 : render rooted A ++ '/' :: s = (render rooted A ++ ['/']) ++ s := by simp
    rw [h1, h2, backtrack_through _ _ _ hs2 (by simp; omega) _ (by omega)]
    have h3 : (render rooted A ++ ['/']).length = (render rooted A).length + 1 := by simp
    have hget1 : ((render rooted A ++ ['/']) ++ s)[(render rooted A).length + 1]? =
        some (s[0]) := by
      rw [List.getElem?_append_right (by simp)]
      simp [List.getElem?_eq_getElem hpos]
    have hne : s[0] ≠ '/' := by
      intro e
      apply hs2
      rw [← e]
      exact List.getElem_mem _
    have hget0 : ((render rooted A ++ ['/']) ++ s)[(render rooted A).length]? = some '/' := by
      rw [List.append_assoc, List.getElem?_append_right (le_refl _)]
      simp
    rw [h3, backtrack, if_pos, backtrack_at_slash _ _ _ hget0]
    · simp
    · refine ⟨by omega, ?_⟩
      rw [hget1]
      simpa using hne

theorem render_eq_root_iff (rooted : Bool) (stack : List GoString)
    (h : ∀ seg ∈ stack, seg ≠ [] ∧ '/' ∉ seg) :
    (render rooted stack).length = (render rooted []).length ↔ stack = [] := by
  constructor
  · intro hlen
    by_contra hne
    have hlt := (render_take_length_lt_iff rooted stack 0 h (Nat.zero_le _)).2
      (List.length_pos.2 hne)
    simp only [List.take_zero] at hlt
    omega
  · intro e; rw [e]

theorem Holds_init (rooted : Bool) :
    Holds rooted (if rooted then ['/'] else [], if rooted then 1 else 0) ([], 0) := by
  cases rooted <;> simp [Holds, render, List.intercalate]

theorem Holds_step (rooted : Bool) (b : GoString × Nat) (st : List GoString × Nat)
    (seg : GoString) (hseg : '/' ∉ seg) (h : Holds rooted b st) :
    Holds rooted (cleanElem rooted b seg) (stackElem rooted st seg) := by
  obtain ⟨out, dd⟩ := b
  obtain ⟨stack, m⟩ := st
  obtain ⟨h1, h2, h3, h4⟩ := h
  simp only at h1 h2 h3 h4
  subst h1 h2
  unfold cleanElem stackElem
  by_cases c1 : seg = [] ∨ seg = ['.']
  · rw [if_pos c1, if_pos c1]
    exact ⟨rfl, rfl, h3, h4⟩
  · rw [if_neg c1, if_neg c1]
    have hne : seg ≠ [] := fun e => c1 (Or.inl e)
    have hiff := render_take_length_lt_iff rooted stack m h4 h3
    have hpush : ∀ k, k ≤ stack.length → Holds rooted
        ((if (rooted = true ∧ (render rooted stack).length ≠ 1) ∨
            (rooted = false ∧ (render rooted stack).length ≠ 0)
          then render rooted stack ++ ['/'] else render rooted stack) ++ seg,
          (render rooted (stack.take k)).length) (stack ++ [seg], k) := by
      intro k hk
      refine ⟨?_, ?_, ?_, ?_⟩
      · simp only
        rw [render_append_singleton]
        have hroot := render_eq_root_iff rooted stack h4
        rw [render_nil] at hroot
        by_cases hs : stack = []
        · subst hs
          cases rooted <;> simp [render_nil]
        · rw [if_neg hs, if_pos]
          · simp
          · cases rooted
            · right; refine ⟨rfl, ?_⟩
              intro e; exact hs (hroot.1 (by simpa using e))
            · left; refine ⟨rfl, ?_⟩
              intro e; exact hs (hroot.1 (by simpa using e))
      · simp only
        rw [List.take_append_of_le_length hk]
      · simp only [List.length_append, List.length_singleton]; omega
      · intro s hs
        rcases List.mem_append.1 hs with hs | hs
        · exact h4 s hs
        · have : s = seg := by simpa using hs
          subst this
          exact ⟨hne, hseg⟩
    by_cases c2 : seg = ['.', '.']
    · rw [if_pos c2, if_pos c2]
      simp only
      by_cases c3 : m < stack.length
      · rw [if_pos (hiff.2 c3), if_pos c3]
        have hsne : stack ≠ [] := by
          intro e; rw [e] at c3; simp at c3
        obtain ⟨A, s, rfl⟩ : ∃ A s, stack = A ++ [s] :=
          ⟨stack.dropLast, stack.getLast hsne, (List.dropLast_append_getLast hsne).symm⟩
        have hA : ∀ seg ∈ A, seg ≠ [] ∧ '/' ∉ seg := fun x hx =>
          h4 x (List.mem_append_left _ hx)
        have hs := h4 s (by simp)
        have hmA : m ≤ A.length := by simp at c3; omega
        rw [List.take_append_of_le_length hmA, List.dropLast_concat]
        refine ⟨?_, rfl, hmA, hA⟩
        exact backtrack_pop rooted A s m hs.1 hs.2 hA hmA
      · rw [if_neg (fun hlt => c3 (hiff.1 hlt)), if_neg c3]
        by_cases c4 : rooted = false
        · rw [if_pos c4, if_pos c4]
          subst c4
          have hk := hpush stack.length (le_refl _)
          obtain ⟨k1, _, _, k4⟩ := hk
          simp only at k1 k4
          have hout : (if 0 < (render false stack).length then render false stack ++ ['/']
              else render false stack) ++ ['.', '.'] = render false (stack ++ [seg]) := by
            rw [← k1, c2]
            congr 1
            by_cases hl : (render false stack).length = 0
            · simp [hl]
            · have : 0 < (render false stack).length := Nat.pos_of_ne_zero hl
              simp [hl, this]
          refine ⟨hout, ?_, ?_, k4⟩
          · simp only
            rw [hout, List.take_of_length_le (by simp)]
          · simp
        · rw [if_neg c4, if_neg c4]
          exact ⟨rfl, rfl, h3, h4⟩
    · rw [if_neg c2, if_neg c2]
      exact hpush m h3

theorem Holds_foldl (rooted : Bool) :
    ∀ (segs : List GoString) (b : GoString × Nat) (st : List GoString × Nat),
      (∀ seg ∈ segs, '/' ∉ seg) → Holds rooted b st →
      Holds rooted (segs.foldl (cleanElem rooted) b) (segs.foldl (stackElem rooted) st) := by
  intro segs
  induction segs with
  | nil => intro b st _ h; exact h
  | cons seg segs ih =>
    intro b st hs h
    rw [List.foldl_cons, List.foldl_cons]
    exact ih _ _ (fun x hx => hs x (List.mem_cons_of_mem _ hx))
      (Holds_step rooted b st seg (hs seg (List.mem_cons_self _ _)) h)

theorem stackElem_nil (rooted : Bool) (st : List GoString × Nat) :
    stackElem rooted st [] = st := by
  simp [stackElem]

/-- The function `path.Clean` in terms of the kept path elements. -/
theorem pathClean_eq (path : GoString) (h : path ≠ []) :
    pathClean path =
      if render (decide (path.head? = some '/'))
          (cleanStack (decide (path.head? = some '/')) (stringsSplit '/' path)) = []
      then ['.']
      else render (decide (path.head? = some '/'))
          (cleanStack (decide (path.head? = some '/')) (stringsSplit '/' path)) := by
  unfold pathClean
  rw [if_neg h]
  simp only
  generalize hr : decide (path.head? = some '/') = rooted
  have hlen : (if rooted = true then path.tail else path).length ≤ path.length := by
    split <;> simp
  rw [cleanLoop_eq rooted _ _ _ _ hlen]
  simp only
  have hsplit : (stringsSplit '/' (if rooted = true then path.tail else path)).foldl
      (stackElem rooted) ([], 0) = (stringsSplit '/' path).foldl (stackElem rooted) ([], 0) := by
    cases rooted with
    | false => simp
    | true =>
      cases path with
      | nil => exact absurd rfl h
      | cons c t =>
        have hc : c = '/' := by simpa using hr
        subst hc
        simp [stringsSplit_cons_sep, stackElem_nil]
  have hH := Holds_foldl rooted (stringsSplit '/' (if rooted = true then path.tail else path))
    _ _ (stringsSplit_no_sep '/' _) (Holds_init rooted)
  rw [hsplit] at hH
  rw [hH.1]
  unfold cleanStack
  by_cases he : render rooted ((stringsSplit '/' path).foldl (stackElem rooted) ([], 0)).1 = []
  · rw [if_pos he, if_pos (by rw [he]; rfl)]
  · rw [if_neg he, if_neg (by simpa using he)]

/-! ## path.Join -/

theorem joinLoop_split {buf : GoString} (hb : buf ≠ []) (elem : List GoString) :
    stringsSplit '/' (joinLoop elem buf) =
      stringsSplit '/' buf ++ elem.flatMap (stringsSplit '/') := by
  induction elem generalizing buf with
  | nil => simp [joinLoop]
  | cons e elem ih =>
    have hpos : 0 < buf.length := List.length_pos.2 hb
    rw [joinLoop, if_pos (Or.inl hpos), if_pos hpos, ih (by simp), List.append_assoc,
      List.singleton_append, stringsSplit_append_sep]
    simp

theorem joinLoop_head {buf : GoString} (hb : buf ≠ []) (elem : List GoString) :
    joinLoop elem buf ≠ [] ∧ (joinLoop elem buf).head? = buf.head? := by
  induction elem generalizing buf with
  | nil => simp [joinLoop, hb]
  | cons e elem ih =>
    have hpos : 0 < buf.length := List.length_pos.2 hb
    rw [joinLoop, if_pos (Or.inl hpos), if_pos hpos]
    obtain ⟨h1, h2⟩ := @ih (buf ++ ['/'] ++ e) (by simp)
    refine ⟨h1, ?_⟩
    rw [h2]
    cases buf with
    | nil => exact absurd rfl hb
    | cons a buf => simp

theorem joinLoop_nil_head (parts : List GoString) (h : parts.flatten ≠ []) :
    joinLoop parts [] ≠ [] ∧ (joinLoop parts []).head? = parts.flatten.head? := by
  induction parts with
  | nil => simp at h
  | cons e parts ih =>
    by_cases he : e = []
    · subst he
      rw [joinLoop, if_neg (by simp)]
      simpa using ih (by simpa using h)
    · rw [joinLoop, if_pos (Or.inr he), if_neg (by simp), List.nil_append]
      obtain ⟨h1, h2⟩ := joinLoop_head he parts
      refine ⟨h1, ?_⟩
      rw [h2]
      cases e with
      | nil => exact absurd rfl he
      | cons a e => simp

theorem joinLoop_nil_foldl (rooted : Bool) (parts : List GoString)
    (h : parts.flatten ≠ []) (st : List GoString × Nat) :
    (stringsSplit '/' (joinLoop parts [])).foldl (stackElem rooted) st =
      (parts.flatMap (stringsSplit '/')).foldl (stackElem rooted) st := by
  induction parts with
  | nil => simp at h
  | cons e parts ih =>
    by_cases he : e = []
    · subst he
      rw [joinLoop, if_neg (by simp), ih (by simpa using h)]
      simp [stringsSplit_nil, stackElem_nil]
    · rw [joinLoop, if_pos (Or.inr he), if_neg (by simp), List.nil_append,
        joinLoop_split he]
      simp

theorem sum_length_eq_zero_iff (parts : List GoString) :
    (parts.map List.length).sum = 0 ↔ parts.flatten = [] := by
  rw [← List.length_eq_zero, List.length_flatten]

/-- The function `path.Join` is the lexical form of its elements. -/
theorem pathJoin_eq (parts : List GoString) : pathJoin parts = joinedForm parts := by
  unfold pathJoin joinedForm
  by_cases h : parts.flatten = []
  · rw [if_pos ((sum_length_eq_zero_iff parts).2 h), if_pos h]
  · rw [if_neg (fun e => h ((sum_length_eq_zero_iff parts).1 e)), if_neg h]
    obtain ⟨h1, h2⟩ := joinLoop_nil_head parts h
    rw [pathClean_eq _ h1, h2]
    simp only [cleanStack]
    rw [joinLoop_nil_foldl _ parts h]

/-- The method `translateViperPath` is `/` and the lexical form of the
segments of the prefix and of the key. -/
theorem translateViperPath_eq (p : ParameterViper) (key : GoString) :
    p.translateViperPath key =
      '/' :: joinedForm (stringsSplit '/' p.parameterPrefix ++ stringsSplit '.' key) := by
  unfold ParameterViper.translateViperPath
  simp only
  rw [pathJoin_eq]

/-! ## The lexical form of the joined elements -/

theorem flatMap_split_of_no_slash (L : List GoString) (h : ∀ x ∈ L, '/' ∉ x) :
    L.flatMap (stringsSplit '/') = L := by
  induction L with
  | nil => rfl
  | cons x L ih =>
    rw [List.flatMap_cons, stringsSplit_of_not_mem (h x (List.mem_cons_self _ _)),
      ih (fun y hy => h y (List.mem_cons_of_mem _ hy))]
    rfl

theorem foldl_stackElem_plain (rooted : Bool) :
    ∀ (L : List GoString) (st : List GoString × Nat),
      (∀ x ∈ L, x ≠ ['.'] ∧ x ≠ ['.', '.']) →
      L.foldl (stackElem rooted) st = (st.1 ++ L.filter (fun s => decide (s ≠ [])), st.2) := by
  intro L
  induction L with
  | nil => intro st _; simp
  | cons x L ih =>
    intro st h
    have hx := h x (List.mem_cons_self _ _)
    rw [List.foldl_cons, ih _ (fun y hy => h y (List.mem_cons_of_mem _ hy))]
    by_cases hn : x = []
    · subst hn
      simp [stackElem]
    · simp [stackElem, hn, hx.1, hx.2]

theorem flatten_eq_nil_iff (L : List GoString) : L.flatten = [] ↔ ∀ x ∈ L, x = [] := by
  induction L with
  | nil => simp
  | cons x L ih => simp [ih]

theorem flatten_head_mem (L : List GoString) (c : Char) (h : L.flatten.head? = some c) :
    ∃ x ∈ L, x.head? = some c ∧ c ∈ x := by
  induction L with
  | nil => simp at h
  | cons x L ih =>
    cases x with
    | nil =>
      obtain ⟨y, hy, hh⟩ := ih (by simpa using h)
      exact ⟨y, List.mem_cons_of_mem _ hy, hh⟩
    | cons a x =>
      have : a = c := by simpa using h
      subst this
      exact ⟨a :: x, List.mem_cons_self _ _, by simp, by simp⟩

theorem cleanStack_segs (rooted : Bool) (segs : List GoString) (h : ∀ seg ∈ segs, '/' ∉ seg) :
    ∀ s ∈ cleanStack rooted segs, s ≠ [] ∧ '/' ∉ s :=
  (Holds_foldl rooted segs _ _ h (Holds_init rooted)).2.2.2

theorem flatMap_split_no_slash (L : List GoString) :
    ∀ seg ∈ L.flatMap (stringsSplit '/'), '/' ∉ seg := by
  intro seg hseg
  obtain ⟨x, _, hx⟩ := List.mem_flatMap.1 hseg
  exact stringsSplit_no_sep '/' x seg hx

theorem joinedForm_plain (parts : List GoString)
    (h : ∀ x ∈ parts, '/' ∉ x ∧ x ≠ ['.'] ∧ x ≠ ['.', '.']) :
    joinedForm parts =
      List.intercalate ['/'] (parts.filter (fun s => decide (s ≠ []))) := by
  unfold joinedForm
  by_cases hf : parts.flatten = []
  · rw [if_pos hf]
    have hall := (flatten_eq_nil_iff parts).1 hf
    have : parts.filter (fun s => decide (s ≠ [])) = [] := by
      rw [List.filter_eq_nil_iff]
      intro x hx
      simp [hall x hx]
    rw [this]
    rfl
  · rw [if_neg hf]
    have hroot : decide (parts.flatten.head? = some '/') = false := by
      rw [decide_eq_false_iff_not]
      intro e
      obtain ⟨x, hx, _, hmem⟩ := flatten_head_mem parts '/' e
      exact (h x hx).1 hmem
    simp only [hroot]
    have hstack : cleanStack false (parts.flatMap (stringsSplit '/')) =
        parts.filter (fun s => decide (s ≠ [])) := by
      rw [flatMap_split_of_no_slash parts (fun x hx => (h x hx).1)]
      unfold cleanStack
      rw [foldl_stackElem_plain false parts _ (fun x hx => (h x hx).2)]
      simp
    have hsegs := cleanStack_segs false _ (flatMap_split_no_slash parts)
    rw [hstack] at hsegs ⊢
    have hne : parts.filter (fun s => decide (s ≠ [])) ≠ [] := by
      intro e
      apply hf
      rw [flatten_eq_nil_iff]
      intro x hx
      by_contra hx0
      have : x ∈ parts.filter (fun s => decide (s ≠ [])) := by
        rw [List.mem_filter]
        exact ⟨hx, by simpa using hx0⟩
      rw [e] at this
      simp at this
    have hlen := render_eq_root_iff false _ hsegs
    rw [if_neg]
    · simp [render]
    · intro e
      apply hne
      apply hlen.1
      rw [e]
      rfl

theorem joinedForm_insert_nil (A B : List GoString) :
    joinedForm (A ++ [] :: B) = joinedForm (A ++ B) := by
  have h1 : (A ++ [] :: B).flatten = (A ++ B).flatten := by simp
  have h2 : ∀ rooted, cleanStack rooted ((A ++ [] :: B).flatMap (stringsSplit '/')) =
      cleanStack rooted ((A ++ B).flatMap (stringsSplit '/')) := by
    intro rooted
    unfold cleanStack
    rw [List.flatMap_append, List.flatMap_append, List.foldl_append, List.foldl_append,
      List.flatMap_cons, stringsSplit_nil, List.foldl_append]
    simp [stackElem_nil]
  unfold joinedForm
  rw [h1]
  simp only [h2]

theorem intercalate_cons_head (s : GoString) (hs : s ≠ []) (rest : List GoString) :
    (List.intercalate ['/'] (s :: rest)).head? = s.head? := by
  cases s with
  | nil => exact absurd rfl hs
  | cons a s =>
    cases rest with
    | nil => simp [intercalate_singleton]
    | cons b rest => simp [intercalate_cons_cons]

theorem intercalate_append_getLast (A : List GoString) (s : GoString) (hs : s ≠ []) :
    (List.intercalate ['/'] (A ++ [s])).getLast? = s.getLast? := by
  rw [intercalate_append_singleton]
  have hl : ∃ c, s.getLast? = some c := by
    cases h : s.getLast? with
    | none => exact absurd (List.getLast?_eq_none_iff.1 h) hs
    | some c => exact ⟨c, rfl⟩
  obtain ⟨c, hc⟩ := hl
  have hcons : ('/' :: s).getLast? = some c := by
    cases s with
    | nil => exact absurd rfl hs
    | cons a s => simpa [List.getLast?_cons_cons] using hc
  by_cases hA : A = []
  · rw [if_pos hA]
  · rw [if_neg hA, List.getLast?_append, hcons, hc]
    rfl

theorem stringsSplit_subset (sep : Char) (s : GoString) :
    ∀ seg ∈ stringsSplit sep s, ∀ c ∈ seg, c ∈ s := by
  induction s with
  | nil =>
    intro seg hseg c hc
    rw [stringsSplit_nil] at hseg
    have : seg = [] := by simpa using hseg
    rw [this] at hc
    simp at hc
  | cons a s ih =>
    intro seg hseg c hc
    by_cases h : a = sep
    · subst h
      rw [stringsSplit_cons_sep] at hseg
      rcases List.mem_cons.1 hseg with rfl | hseg
      · simp at hc
      · exact List.mem_cons_of_mem _ (ih seg hseg c hc)
    · obtain ⟨seg0, segs, h1, h2⟩ := stringsSplit_cons_ne_eq h s
      rw [h2] at hseg
      rw [h1] at ih
      rcases List.mem_cons.1 hseg with rfl | hseg
      · rcases List.mem_cons.1 hc with rfl | hc
        · exact List.mem_cons_self _ _
        · exact List.mem_cons_of_mem _ (ih seg0 (List.mem_cons_self _ _) c hc)
      · exact List.mem_cons_of_mem _ (ih seg (List.mem_cons_of_mem _ hseg) c hc)

theorem joinedForm_cases (parts : List GoString) :
    joinedForm parts = [] ∨ joinedForm parts = ['.'] ∨
      ∃ stack : List GoString, (∀ s ∈ stack, s ≠ [] ∧ '/' ∉ s) ∧
        joinedForm parts = render (decide (parts.flatten.head? = some '/')) stack ∧
        (decide (parts.flatten.head? = some '/') = false → stack ≠ []) := by
  unfold joinedForm
  by_cases hf : parts.flatten = []
  · left; rw [if_pos hf]
  · right
    rw [if_neg hf]
    simp only
    by_cases ho : render (decide (parts.flatten.head? = some '/'))
        (cleanStack (decide (parts.flatten.head? = some '/'))
          (parts.flatMap (stringsSplit '/'))) = []
    · left; rw [if_pos ho]
    · right
      rw [if_neg ho]
      refine ⟨_, cleanStack_segs _ _ (flatMap_split_no_slash parts), rfl, ?_⟩
      intro hr hs
      rw [hr] at ho
      rw [hr] at hs
      apply ho
      rw [hs]
      rfl

theorem seg_head_ne_slash {s : GoString} (h : '/' ∉ s) : s.head? ≠ some '/' :=
  fun e => h (List.mem_of_mem_head? e)

theorem seg_getLast_ne_slash {s : GoString} (h : '/' ∉ s) : s.getLast? ≠ some '/' :=
  fun e => h (List.mem_of_mem_getLast? e)

theorem render_false_head (stack : List GoString) (h : ∀ s ∈ stack, s ≠ [] ∧ '/' ∉ s) :
    (render false stack).head? ≠ some '/' := by
  cases stack with
  | nil => simp [render, List.intercalate]
  | cons s rest =>
    have hs := h s (List.mem_cons_self _ _)
    simp only [render, Bool.false_eq_true, if_false, List.nil_append]
    rw [intercalate_cons_head s hs.1]
    exact seg_head_ne_slash hs.2

theorem render_getLast (rooted : Bool) (stack : List GoString) (hne : stack ≠ [])
    (h : ∀ s ∈ stack, s ≠ [] ∧ '/' ∉ s) :
    (render rooted stack).getLast? ≠ some '/' := by
  obtain ⟨A, s, rfl⟩ : ∃ A s, stack = A ++ [s] :=
    ⟨stack.dropLast, stack.getLast hne, (List.dropLast_append_getLast hne).symm⟩
  have hs := h s (by simp)
  have hl := intercalate_append_getLast A s hs.1
  have hi : List.intercalate ['/'] (A ++ [s]) ≠ [] := by
    intro e
    rw [e] at hl
    exact hs.1 (List.getLast?_eq_none_iff.1 hl.symm)
  unfold render
  rw [List.getLast?_append]
  cases hq : (List.intercalate ['/'] (A ++ [s])).getLast? with
  | none => exact absurd (List.getLast?_eq_none_iff.1 hq) hi
  | some c =>
    rw [hq] at hl
    intro e
    have : c = '/' := by simpa using e
    rw [this] at hl
    exact seg_getLast_ne_slash hs.2 hl.symm

theorem render_ne_nil (rooted : Bool) (stack : List GoString) (hne : stack ≠ [])
    (h : ∀ s ∈ stack, s ≠ [] ∧ '/' ∉ s) : render rooted stack ≠ [] := by
  intro e
  have hlt := (render_take_length_lt_iff rooted stack 0 h (Nat.zero_le _)).2
    (List.length_pos.2 hne)
  rw [e] at hlt
  simp at hlt

/-! ## The typed accessors -/

/-- C1: when the remote collaborator, asked for the translated path of `key`
with decryption requested, answers with no error and a parameter carrying the
value `v`, `GetString key` returns exactly `v`, whatever the local store is
and whatever the remote collaborator holds at other paths. -/
theorem GetString_of_remote_value (pfx key v : GoString) (store : parameterGetter)
    (local1 local2 : viper.Viper)
    (h : store { Name := (ParameterViper.mk pfx store local1).translateViperPath key,
                 WithDecryption := true } =
      (some { Parameter := some { Value := some v } }, none)) :
    (ParameterViper.mk pfx store local1).GetString key = .ok v ∧
      (ParameterViper.mk pfx store local2).GetString key = .ok v := by
  have h2 : store ⟨(ParameterViper.mk pfx store local2).translateViperPath key, true⟩ =
      (some { Parameter := some { Value := some v } }, none) := h
  constructor
  · simp only [ParameterViper.GetString, ParameterViper.getParamater, h, derefValue]
  · simp only [ParameterViper.GetString, ParameterViper.getParamater, h2, derefValue]

/-- The scenario of `TestGetStringFromParameterStore`, for C1. -/
theorem GetString_of_remote_value_witness :
    testParameterStore [("/prefix/test/foo".toList,
        { Parameter := some { Value := some "TestValue".toList }, Err := none })]
      { Name := (ParameterViper.mk "prefix".toList
          (testParameterStore [("/prefix/test/foo".toList,
            { Parameter := some { Value := some "TestValue".toList }, Err := none })])
          viper.New).translateViperPath "test.foo".toList,
        WithDecryption := true } =
      (some { Parameter := some { Value := some "TestValue".toList } }, none) ∧
    (ParameterViper.mk "prefix".toList
        (testParameterStore [("/prefix/test/foo".toList,
          { Parameter := some { Value := some "TestValue".toList }, Err := none })])
        viper.New).GetString "test.foo".toList = .ok "TestValue".toList :=
  ⟨by decide,
    (GetString_of_remote_value "prefix".toList "test.foo".toList "TestValue".toList
      (testParameterStore [("/prefix/test/foo".toList,
        { Parameter := some { Value := some "TestValue".toList }, Err := none })])
      viper.New viper.New (by decide)).1⟩

/-- C2: when the remote collaborator answers the translated path of `key` with
an error, of any class and with or without an output, `GetString key` is the
local store's `GetString key` and `GetStringSlice key` is the local store's
`GetStringSlice key`, both with the untranslated key. -/
theorem accessors_fall_back_on_error (p : ParameterViper) (key : GoString)
    (out : Option ssm.GetParameterOutput) (err : RemoteError)
    (h : p.parameterStore { Name := p.translateViperPath key, WithDecryption := true } =
      (out, some err)) :
    p.GetString key = .ok (p.Viper.GetString key) ∧
      p.GetStringSlice key = .ok (p.Viper.GetStringSlice key) := by
  constructor
  · simp only [ParameterViper.GetString, ParameterViper.getParamater, h]
    cases err.code with
    | none => rfl
    | some code => by_cases hc : code = ssm.ErrCodeInternalServerError <;> simp [hc]
  · simp only [ParameterViper.GetStringSlice, ParameterViper.getParamater, h]
    cases err.code with
    | none => rfl
    | some code => by_cases hc : code = ssm.ErrCodeInternalServerError <;> simp [hc]

/-- The scenario of `TestGetStringFromViper`, for C2: the remote store is empty
and the local store holds `TestValue` for every key. -/
theorem accessors_fall_back_on_error_witness :
    (ParameterViper.mk "prefix".toList (testParameterStore [])
        { GetString := fun _ => "TestValue".toList,
          GetStringSlice := fun _ => ["Bar".toList, "Baz".toList] }).GetString
      "test.foo".toList = .ok "TestValue".toList ∧
    (ParameterViper.mk "prefix".toList (testParameterStore [])
        { GetString := fun _ => "TestValue".toList,
          GetStringSlice := fun _ => ["Bar".toList, "Baz".toList] }).GetStringSlice
      "test.foo".toList = .ok ["Bar".toList, "Baz".toList] :=
  accessors_fall_back_on_error
    (ParameterViper.mk "prefix".toList (testParameterStore [])
      { GetString := fun _ => "TestValue".toList,
        GetStringSlice := fun _ => ["Bar".toList, "Baz".toList] })
    "test.foo".toList none (awserr.New ssm.ErrCodeParameterNotFound []) (by decide)

/-- C3: when the remote collaborator answers the translated path of `key` with
no error and the value `v`, `GetStringSlice key` returns the split of `v` on
`,`: a non-empty list, one element longer than the number of commas of `v`,
whose elements hold no comma and give back `v` when joined with commas;
nothing is trimmed. -/
theorem GetStringSlice_of_remote_value (p : ParameterViper) (key v : GoString)
    (h : p.parameterStore { Name := p.translateViperPath key, WithDecryption := true } =
      (some { Parameter := some { Value := some v } }, none)) :
    p.GetStringSlice key = .ok (stringsSplit ',' v) ∧
      stringsSplit ',' v ≠ [] ∧
      (stringsSplit ',' v).length = v.count ',' + 1 ∧
      (∀ seg ∈ stringsSplit ',' v, ',' ∉ seg) ∧
      List.intercalate [','] (stringsSplit ',' v) = v ∧
      stringsSplit ',' [] = [[]] ∧
      stringsSplit ',' "Bar,Baz,Alice,Bob".toList =
        ["Bar".toList, "Baz".toList, "Alice".toList, "Bob".toList] ∧
      stringsSplit ',' "a, b".toList = ["a".toList, " b".toList] := by
  refine ⟨?_, stringsSplit_ne_nil _ _, stringsSplit_length _ _, stringsSplit_no_sep _ _,
    intercalate_stringsSplit _ _, by decide, by decide, by decide⟩
  simp only [ParameterViper.GetStringSlice, ParameterViper.getParamater, h, derefValue]

/-- The scenario of `TestGetStringSliceFromParameterStore`, for C3. -/
theorem GetStringSlice_of_remote_value_witness :
    (ParameterViper.mk "prefix".toList
        (testParameterStore [("/prefix/test/foo".toList,
          { Parameter := some { Value := some "Bar,Baz,Alice,Bob".toList }, Err := none })])
        viper.New).GetStringSlice "test.foo".toList =
      .ok ["Bar".toList, "Baz".toList, "Alice".toList, "Bob".toList] :=
  (GetStringSlice_of_remote_value
    (ParameterViper.mk "prefix".toList
      (testParameterStore [("/prefix/test/foo".toList,
        { Parameter := some { Value := some "Bar,Baz,Alice,Bob".toList }, Err := none })])
      viper.New)
    "test.foo".toList "Bar,Baz,Alice,Bob".toList (by decide)).1

/-! ## The translated path -/

/-- C4: for a prefix none of whose `/`-separated segments is `.` or `..` and a
key without `/`, `translateViperPath key` is `/` followed by the non-empty
segments of the prefix (split on `/`) and then the non-empty segments of the
key (split on `.`), joined with a single `/`. -/
theorem translateViperPath_plain (p : ParameterViper) (key : GoString)
    (hp : ∀ seg ∈ stringsSplit '/' p.parameterPrefix, seg ≠ ['.'] ∧ seg ≠ ['.', '.'])
    (hk : '/' ∉ key) :
    p.translateViperPath key =
      '/' :: List.intercalate ['/']
        ((stringsSplit '/' p.parameterPrefix).filter (fun seg => decide (seg ≠ [])) ++
          (stringsSplit '.' key).filter (fun seg => decide (seg ≠ []))) := by
  rw [translateViperPath_eq, joinedForm_plain, List.filter_append]
  intro x hx
  rcases List.mem_append.1 hx with hx | hx
  · exact ⟨stringsSplit_no_sep '/' _ x hx, hp x hx⟩
  · have hdot := stringsSplit_no_sep '.' key x hx
    refine ⟨fun hm => hk (stringsSplit_subset '.' key x hx _ hm), ?_, ?_⟩
    · intro e; rw [e] at hdot; simp at hdot
    · intro e; rw [e] at hdot; simp at hdot

/-- The three cases of `TestTranslateViperPath`, for C4: the prefixes `/test`,
`test` and `/test/` with the key `foo.bar` all give `/test/foo/bar`. -/
theorem translateViperPath_plain_witness :
    (ParameterViper.mk "/test".toList (testParameterStore []) viper.New).translateViperPath
        "foo.bar".toList = "/test/foo/bar".toList ∧
    (ParameterViper.mk "test".toList (testParameterStore []) viper.New).translateViperPath
        "foo.bar".toList = "/test/foo/bar".toList ∧
    (ParameterViper.mk "/test/".toList (testParameterStore []) viper.New).translateViperPath
        "foo.bar".toList = "/test/foo/bar".toList :=
  ⟨(translateViperPath_plain
      (ParameterViper.mk "/test".toList (testParameterStore []) viper.New)
      "foo.bar".toList (by decide) (by decide)).trans (by decide),
   (translateViperPath_plain
      (ParameterViper.mk "test".toList (testParameterStore []) viper.New)
      "foo.bar".toList (by decide) (by decide)).trans (by decide),
   (translateViperPath_plain
      (ParameterViper.mk "/test/".toList (testParameterStore []) viper.New)
      "foo.bar".toList (by decide) (by decide)).trans (by decide)⟩

/-- C5, the claim as stated fails: with the prefix `.` and the key `foo` the
path is `/foo`, not `/./foo`; with the empty prefix and the key `a//b` it is
`/a/b`, not `/a//b`. -/
theorem translateViperPath_unrestricted_counterexample :
    (ParameterViper.mk ".".toList (testParameterStore []) viper.New).translateViperPath
        "foo".toList = "/foo".toList ∧
    '/' :: List.intercalate ['/']
        ((stringsSplit '/' ".".toList ++ stringsSplit '.' "foo".toList).filter
          (fun seg => decide (seg ≠ []))) = "/./foo".toList ∧
    (ParameterViper.mk [] (testParameterStore []) viper.New).translateViperPath
        "a//b".toList = "/a/b".toList ∧
    '/' :: List.intercalate ['/']
        ((stringsSplit '/' [] ++ stringsSplit '.' "a//b".toList).filter
          (fun seg => decide (seg ≠ []))) = "/a//b".toList := by
  decide

/-- C5, amended: for every prefix and every key, `translateViperPath key` is
`/` followed by the lexical form of the prefix's segments (split on `/`) and
then the key's segments (split on `.`): a `/` inside a key segment cuts it,
empty and `.` pieces are absorbed, a `..` removes the piece kept before it
(see `joinedForm`), and the kept pieces are joined with `/`.  The function has
no error case: the right-hand side is defined for every input. -/
theorem translateViperPath_lexical (p : ParameterViper) (key : GoString) :
    p.translateViperPath key =
      '/' :: joinedForm (stringsSplit '/' p.parameterPrefix ++ stringsSplit '.' key) :=
  translateViperPath_eq p key

/-- C6: for every prefix `q` and every key, the prefixes `q`, `/q`, `q/` and
`/q/` translate the key to the same path. -/
theorem translateViperPath_separators (p : ParameterViper) (q key : GoString) :
    (p.SetParameterStorePrefix ('/' :: q)).translateViperPath key =
        (p.SetParameterStorePrefix q).translateViperPath key ∧
    (p.SetParameterStorePrefix (q ++ ['/'])).translateViperPath key =
        (p.SetParameterStorePrefix q).translateViperPath key ∧
    (p.SetParameterStorePrefix ('/' :: (q ++ ['/']))).translateViperPath key =
        (p.SetParameterStorePrefix q).translateViperPath key := by
  have htrail : stringsSplit '/' (q ++ ['/']) = stringsSplit '/' q ++ [[]] := by
    rw [stringsSplit_append_sep, stringsSplit_nil]
  have h2 : joinedForm (stringsSplit '/' (q ++ ['/']) ++ stringsSplit '.' key) =
      joinedForm (stringsSplit '/' q ++ stringsSplit '.' key) := by
    rw [htrail, List.append_assoc, List.singleton_append, joinedForm_insert_nil]
  have h1 : ∀ r : GoString, joinedForm (stringsSplit '/' ('/' :: r) ++ stringsSplit '.' key) =
      joinedForm (stringsSplit '/' r ++ stringsSplit '.' key) := by
    intro r
    rw [stringsSplit_cons_sep]
    exact joinedForm_insert_nil [] _
  simp only [translateViperPath_eq, ParameterViper.SetParameterStorePrefix]
  refine ⟨?_, ?_, ?_⟩
  · rw [h1]
  · rw [h2]
  · rw [h1, h2]

/-- C7, the claim as stated fails: with the empty prefix the empty key gives
`/`, which ends with `/`, and the key `/a` gives `//a`, which begins with two
`/`. -/
theorem translateViperPath_slashes_counterexample :
    (ParameterViper.mk [] (testParameterStore []) viper.New).translateViperPath [] = ['/'] ∧
    ((ParameterViper.mk [] (testParameterStore []) viper.New).translateViperPath
        []).getLast? = some '/' ∧
    (ParameterViper.mk [] (testParameterStore []) viper.New).translateViperPath
        "/a".toList = "//a".toList ∧
    ((ParameterViper.mk [] (testParameterStore []) viper.New).translateViperPath
        "/a".toList)[1]? = some '/' := by
  decide

/-- Where the translated path has a `/`: it begins with one; a second `/`
follows only when the prefix has no non-empty segment and the first non-empty
segment of the key begins with `/`; and it ends with `/` only when it is `/`
or `//`. -/
theorem slashes_only_if (p : ParameterViper) (key : GoString) :
    (p.translateViperPath key).head? = some '/' ∧
    ((p.translateViperPath key)[1]? = some '/' →
      (∀ seg ∈ stringsSplit '/' p.parameterPrefix, seg = []) ∧
        (stringsSplit '.' key).flatten.head? = some '/' ∧ '/' ∈ key) ∧
    ((p.translateViperPath key).getLast? = some '/' →
      p.translateViperPath key = ['/'] ∨ p.translateViperPath key = ['/', '/']) := by
  rw [translateViperPath_eq]
  refine ⟨rfl, ?_, ?_⟩
  · intro h
    have hJ : (joinedForm (stringsSplit '/' p.parameterPrefix ++
        stringsSplit '.' key)).head? = some '/' := by
      rw [List.head?_eq_getElem?]
      simpa using h
    have hroot : (stringsSplit '/' p.parameterPrefix ++
        stringsSplit '.' key).flatten.head? = some '/' := by
      rcases joinedForm_cases (stringsSplit '/' p.parameterPrefix ++ stringsSplit '.' key)
        with e | e | ⟨stack, hs, e, _⟩
      · rw [e] at hJ; simp at hJ
      · rw [e] at hJ; simp at hJ
      · by_contra hn
        rw [e, decide_eq_false hn] at hJ
        exact render_false_head stack hs hJ
    rw [List.flatten_append] at hroot
    have hpre : (stringsSplit '/' p.parameterPrefix).flatten = [] := by
      by_contra hne
      have hh : (stringsSplit '/' p.parameterPrefix).flatten.head? = some '/' := by
        cases hq : (stringsSplit '/' p.parameterPrefix).flatten with
        | nil => exact absurd hq hne
        | cons a t =>
          rw [hq] at hroot
          simpa using hroot
      obtain ⟨x, hx, _, hm⟩ := flatten_head_mem _ _ hh
      exact stringsSplit_no_sep '/' _ x hx hm
    rw [hpre, List.nil_append] at hroot
    refine ⟨(flatten_eq_nil_iff _).1 hpre, hroot, ?_⟩
    obtain ⟨x, hx, _, hm⟩ := flatten_head_mem _ _ hroot
    exact stringsSplit_subset '.' key x hx _ hm
  · intro h
    rcases joinedForm_cases (stringsSplit '/' p.parameterPrefix ++ stringsSplit '.' key)
      with e | e | ⟨stack, hs, e, _⟩
    · left; rw [e]
    · rw [e] at h; simp at h
    · rw [e] at h ⊢
      by_cases hst : stack = []
      · subst hst
        cases hr : decide ((stringsSplit '/' p.parameterPrefix ++
            stringsSplit '.' key).flatten.head? = some '/') with
        | false => left; simp [render, List.intercalate]
        | true => right; simp [render, List.intercalate]
      · exfalso
        have hl := render_getLast (decide ((stringsSplit '/' p.parameterPrefix ++
            stringsSplit '.' key).flatten.head? = some '/')) stack hst hs
        have hne := render_ne_nil (decide ((stringsSplit '/' p.parameterPrefix ++
            stringsSplit '.' key).flatten.head? = some '/')) stack hst hs
        generalize render (decide ((stringsSplit '/' p.parameterPrefix ++
            stringsSplit '.' key).flatten.head? = some '/')) stack = R at h hl hne
        cases R with
        | nil => exact hne rfl
        | cons a t =>
          rw [List.getLast?_cons_cons] at h
          exact hl h

/-! ## The classification of remote errors -/

/-- C8: when the remote collaborator answers `path` with an error that carries
its parameter-not-found code, `getParamater path` returns no parameter and the
sentinel `errParameterNotFound`. -/
theorem getParamater_not_found (p : ParameterViper) (path : GoString)
    (out : Option ssm.GetParameterOutput) (err : RemoteError)
    (h : p.parameterStore { Name := path, WithDecryption := true } = (out, some err))
    (hc : err.code = some ssm.ErrCodeParameterNotFound) :
    p.getParamater path = .ok (none, some .errParameterNotFound) := by
  simp only [ParameterViper.getParamater, h, hc]
  rw [if_neg (by decide)]

/-- The scenario of `TestGetParameterNotFound`, for C8. -/
theorem getParamater_not_found_witness :
    (ParameterViper.mk "prefix".toList (testParameterStore []) viper.New).getParamater
        "/prefix/testString".toList = .ok (none, some .errParameterNotFound) :=
  getParamater_not_found
    (ParameterViper.mk "prefix".toList (testParameterStore []) viper.New)
    "/prefix/testString".toList none (awserr.New ssm.ErrCodeParameterNotFound [])
    (by decide) (by decide)

/-- C9, the claim as stated fails: a remote error with the code
`AccessDeniedException`, which is neither the not-found code nor the
internal-server-error code, is answered with the sentinel
`errParameterNotFound`. -/
theorem getParamater_other_code_counterexample :
    (awserr.New "AccessDeniedException".toList []).code ≠
        some ssm.ErrCodeParameterNotFound ∧
    (awserr.New "AccessDeniedException".toList []).code ≠
        some ssm.ErrCodeInternalServerError ∧
    (ParameterViper.mk "prefix".toList
        (fun _ => (none, some (awserr.New "AccessDeniedException".toList [])))
        viper.New).getParamater "/prefix/testString".toList =
      .ok (none, some .errParameterNotFound) := by
  decide

/-- C9, amended: when the remote collaborator answers `path` with an error,
`getParamater path` returns the sentinel `errParameterNotFound` exactly when
the error exposes a code and the code is not the internal-server-error code
(the not-found code or any other code); for an error that exposes no code it
returns an error with the generic diagnostic message, which is not the
sentinel. -/
theorem getParamater_sentinel_iff (p : ParameterViper) (path : GoString)
    (out : Option ssm.GetParameterOutput) (err : RemoteError)
    (h : p.parameterStore { Name := path, WithDecryption := true } = (out, some err)) :
    (p.getParamater path = .ok (none, some .errParameterNotFound) ↔
      ∃ code, err.code = some code ∧ code ≠ ssm.ErrCodeInternalServerError) ∧
    (err.code = none →
      p.getParamater path = .ok (none, some (.errorf
        ("unknown error retrieving parameter: ".toList ++ err.text))) ∧
      p.getParamater path ≠ .ok (none, some .errParameterNotFound)) := by
  simp only [ParameterViper.getParamater, h]
  cases hcode : err.code with
  | none => simp
  | some code =>
    by_cases hc : code = ssm.ErrCodeInternalServerError
    · simp [hc]
    · simp [hc]

/-- An error coded `AccessDeniedException` gives the sentinel, for C9. -/
theorem getParamater_sentinel_iff_witness :
    (ParameterViper.mk "prefix".toList
        (fun _ => (none, some (awserr.New "AccessDeniedException".toList [])))
        viper.New).getParamater "/prefix/testString".toList =
      .ok (none, some .errParameterNotFound) :=
  (getParamater_sentinel_iff
    (ParameterViper.mk "prefix".toList
      (fun _ => (none, some (awserr.New "AccessDeniedException".toList [])))
      viper.New)
    "/prefix/testString".toList none (awserr.New "AccessDeniedException".toList [])
    rfl).1.2 ⟨"AccessDeniedException".toList, rfl, by decide⟩

/-- C10: when the remote collaborator answers `path` with an error that
carries the internal-server-error code, `getParamater path` returns no
parameter and an error that is not the sentinel and whose message is
`parameter store returned internal server error: ` followed by the text of the
remote error; when the error exposes no code, it returns no parameter and an
error that is not the sentinel and whose message is
`unknown error retrieving parameter: ` followed by the text of the remote
error. -/
theorem getParamater_fatal (p : ParameterViper) (path : GoString)
    (out : Option ssm.GetParameterOutput) (err : RemoteError)
    (h : p.parameterStore { Name := path, WithDecryption := true } = (out, some err)) :
    (err.code = some ssm.ErrCodeInternalServerError →
      ∃ e, p.getParamater path = .ok (none, some e) ∧ e ≠ .errParameterNotFound ∧
        e.Error = "parameter store returned internal server error: ".toList ++ err.text) ∧
    (err.code = none →
      ∃ e, p.getParamater path = .ok (none, some e) ∧ e ≠ .errParameterNotFound ∧
        e.Error = "unknown error retrieving parameter: ".toList ++ err.text) := by
  constructor
  · intro hc
    refine ⟨.errorf ("parameter store returned internal server error: ".toList ++ err.text),
      ?_, by simp, rfl⟩
    simp only [ParameterViper.getParamater, h, hc]
    rw [if_pos trivial]
  · intro hc
    refine ⟨.errorf ("unknown error retrieving parameter: ".toList ++ err.text),
      ?_, by simp, rfl⟩
    simp only [ParameterViper.getParamater, h, hc]

/-- An internal server error and an error without a code, for C10. -/
theorem getParamater_fatal_witness :
    (∃ e, (ParameterViper.mk "prefix".toList
          (fun _ => (none, some (awserr.New ssm.ErrCodeInternalServerError "boom".toList)))
          viper.New).getParamater "/prefix/testString".toList = .ok (none, some e) ∧
        e ≠ .errParameterNotFound ∧
        e.Error =
          "parameter store returned internal server error: InternalServerError: boom".toList) ∧
    (∃ e, (ParameterViper.mk "prefix".toList
          (fun _ => (none, some { code := none, text := "timeout".toList }))
          viper.New).getParamater "/prefix/testString".toList = .ok (none, some e) ∧
        e ≠ .errParameterNotFound ∧
        e.Error = "unknown error retrieving parameter: timeout".toList) :=
  ⟨(getParamater_fatal
      (ParameterViper.mk "prefix".toList
        (fun _ => (none, some (awserr.New ssm.ErrCodeInternalServerError "boom".toList)))
        viper.New)
      "/prefix/testString".toList none
      (awserr.New ssm.ErrCodeInternalServerError "boom".toList) rfl).1 rfl,
   (getParamater_fatal
      (ParameterViper.mk "prefix".toList
        (fun _ => (none, some { code := none, text := "timeout".toList }))
        viper.New)
      "/prefix/testString".toList none { code := none, text := "timeout".toList } rfl).2 rfl⟩

/-! ## Joined elements determine the path -/

theorem stringsSplit_intercalate_slash (L : List GoString) (hne : L ≠ [])
    (h : ∀ x ∈ L, '/' ∉ x) :
    stringsSplit '/' (List.intercalate ['/'] L) = L := by
  induction L with
  | nil => exact absurd rfl hne
  | cons a L ih =>
    have ha : '/' ∉ a := h a (List.mem_cons_self _ _)
    by_cases hL : L = []
    · subst hL
      rw [intercalate_singleton, stringsSplit_of_not_mem ha]
    · rw [intercalate_cons_of_ne_nil '/' a hL, stringsSplit_append_sep,
        ih hL (fun x hx => h x (List.mem_cons_of_mem _ hx)), stringsSplit_of_not_mem ha]
      rfl

theorem intercalate_slash_inj (L1 L2 : List GoString) (h1 : L1 ≠ []) (h2 : L2 ≠ [])
    (hs1 : ∀ x ∈ L1, '/' ∉ x) (hs2 : ∀ x ∈ L2, '/' ∉ x)
    (e : List.intercalate ['/'] L1 = List.intercalate ['/'] L2) : L1 = L2 := by
  rw [← stringsSplit_intercalate_slash L1 h1 hs1, e, stringsSplit_intercalate_slash L2 h2 hs2]

theorem intercalate_append_of_ne_nil (sep : Char) (A B : List GoString) (hA : A ≠ [])
    (hB : B ≠ []) :
    List.intercalate [sep] (A ++ B) =
      List.intercalate [sep] A ++ sep :: List.intercalate [sep] B := by
  induction A with
  | nil => exact absurd rfl hA
  | cons a A ih =>
    by_cases hA0 : A = []
    · subst hA0
      rw [List.singleton_append, intercalate_cons_of_ne_nil sep a hB, intercalate_singleton]
    · rw [List.cons_append, intercalate_cons_of_ne_nil sep a (by simp [hA0]), ih hA0,
        intercalate_cons_of_ne_nil sep a hA0]
      simp

theorem filter_nonempty_eq_self (L : List GoString) (h : ∀ x ∈ L, x ≠ []) :
    L.filter (fun s => decide (s ≠ [])) = L := by
  rw [List.filter_eq_self]
  intro x hx
  simpa using h x hx

/-- The joined form of prefix segments `Sp` followed by well-formed key
segments `Sk`: what `path.Clean` keeps of the prefix, then the key segments. -/
theorem joinedForm_prefix_key (Sp Sk : List GoString) (hSp : ∀ x ∈ Sp, '/' ∉ x)
    (hSk : ∀ x ∈ Sk, x ≠ [] ∧ '/' ∉ x ∧ '.' ∉ x) (hne : Sk ≠ []) :
    joinedForm (Sp ++ Sk) = List.intercalate ['/'] (cleanStack false Sp ++ Sk) := by
  have hslash : ∀ x ∈ Sp ++ Sk, '/' ∉ x := by
    intro x hx
    rcases List.mem_append.1 hx with hx | hx
    · exact hSp x hx
    · exact (hSk x hx).2.1
  have hf : (Sp ++ Sk).flatten ≠ [] := by
    intro e
    obtain ⟨x, hx⟩ := List.exists_mem_of_ne_nil Sk hne
    exact (hSk x hx).1 ((flatten_eq_nil_iff _).1 e x (List.mem_append_right _ hx))
  have hroot : decide ((Sp ++ Sk).flatten.head? = some '/') = false := by
    rw [decide_eq_false_iff_not]
    intro e
    obtain ⟨x, hx, _, hmem⟩ := flatten_head_mem _ '/' e
    exact hslash x hx hmem
  have hdots : ∀ x ∈ Sk, x ≠ ['.'] ∧ x ≠ ['.', '.'] := by
    intro x hx
    have hd := (hSk x hx).2.2
    constructor
    · intro e; rw [e] at hd; simp at hd
    · intro e; rw [e] at hd; simp at hd
  have hstack : cleanStack false ((Sp ++ Sk).flatMap (stringsSplit '/')) =
      cleanStack false Sp ++ Sk := by
    rw [flatMap_split_of_no_slash _ hslash]
    unfold cleanStack
    rw [List.foldl_append, foldl_stackElem_plain false Sk _ hdots,
      filter_nonempty_eq_self Sk (fun x hx => (hSk x hx).1)]
  have hsegs : ∀ s ∈ cleanStack false Sp ++ Sk, s ≠ [] ∧ '/' ∉ s := by
    intro s hs
    rcases List.mem_append.1 hs with hs | hs
    · exact cleanStack_segs false Sp hSp s hs
    · exact ⟨(hSk s hs).1, (hSk s hs).2.1⟩
  have hrne := render_ne_nil false (cleanStack false Sp ++ Sk) (by simp [hne]) hsegs
  unfold joinedForm
  rw [if_neg hf]
  simp only [hroot, hstack]
  rw [if_neg hrne]
  simp [render]

theorem cleanStack_plain (Sp : List GoString)
    (h : ∀ x ∈ Sp, x ≠ [] ∧ x ≠ ['.'] ∧ x ≠ ['.', '.']) : cleanStack false Sp = Sp := by
  unfold cleanStack
  rw [foldl_stackElem_plain false Sp _ (fun x hx => (h x hx).2),
    filter_nonempty_eq_self Sp (fun x hx => (h x hx).1)]
  rfl

/-! ## Distinct keys and prefixes -/

/-- C11, the claim as stated fails: the prefix `a` with the key `b.c` and the
prefix `a/b` with the key `c` are two different well-formed pairs, and both
translate to `/a/b/c`. -/
theorem translateViperPath_injective_counterexample :
    (∀ seg ∈ stringsSplit '/' "a".toList, seg ≠ [] ∧ seg ≠ ['.'] ∧ seg ≠ ['.', '.']) ∧
    (∀ seg ∈ stringsSplit '/' "a/b".toList, seg ≠ [] ∧ seg ≠ ['.'] ∧ seg ≠ ['.', '.']) ∧
    (∀ seg ∈ stringsSplit '.' "b.c".toList, seg ≠ [] ∧ '/' ∉ seg) ∧
    (∀ seg ∈ stringsSplit '.' "c".toList, seg ≠ [] ∧ '/' ∉ seg) ∧
    ("a".toList, "b.c".toList) ≠ ("a/b".toList, "c".toList) ∧
    (ParameterViper.mk "a".toList (testParameterStore []) viper.New).translateViperPath
        "b.c".toList =
      (ParameterViper.mk "a/b".toList (testParameterStore []) viper.New).translateViperPath
        "c".toList := by
  decide

/-- C11, amended: for prefixes whose `/`-separated segments are all non-empty
and none `.` or `..`, and keys whose `.`-separated segments are all non-empty
and hold no `/`, two pairs translate to the same path exactly when the
segments of the prefix followed by the segments of the key are the same
sequence; so when the two prefixes have the same number of segments, pairs
that differ translate to paths that differ. -/
theorem translateViperPath_injective_segments (q1 q2 : ParameterViper) (k1 k2 : GoString)
    (hp1 : ∀ seg ∈ stringsSplit '/' q1.parameterPrefix,
      seg ≠ [] ∧ seg ≠ ['.'] ∧ seg ≠ ['.', '.'])
    (hp2 : ∀ seg ∈ stringsSplit '/' q2.parameterPrefix,
      seg ≠ [] ∧ seg ≠ ['.'] ∧ seg ≠ ['.', '.'])
    (hk1 : ∀ seg ∈ stringsSplit '.' k1, seg ≠ [] ∧ '/' ∉ seg)
    (hk2 : ∀ seg ∈ stringsSplit '.' k2, seg ≠ [] ∧ '/' ∉ seg) :
    (q1.translateViperPath k1 = q2.translateViperPath k2 ↔
      stringsSplit '/' q1.parameterPrefix ++ stringsSplit '.' k1 =
        stringsSplit '/' q2.parameterPrefix ++ stringsSplit '.' k2) ∧
    ((stringsSplit '/' q1.parameterPrefix).length =
        (stringsSplit '/' q2.parameterPrefix).length →
      (q1.parameterPrefix, k1) ≠ (q2.parameterPrefix, k2) →
      q1.translateViperPath k1 ≠ q2.translateViperPath k2) := by
  have hK : ∀ k : GoString, (∀ seg ∈ stringsSplit '.' k, seg ≠ [] ∧ '/' ∉ seg) →
      ∀ x ∈ stringsSplit '.' k, x ≠ [] ∧ '/' ∉ x ∧ '.' ∉ x :=
    fun k h x hx => ⟨(h x hx).1, (h x hx).2, stringsSplit_no_sep '.' k x hx⟩
  have hform : ∀ (q : ParameterViper) (k : GoString),
      (∀ seg ∈ stringsSplit '/' q.parameterPrefix,
        seg ≠ [] ∧ seg ≠ ['.'] ∧ seg ≠ ['.', '.']) →
      (∀ seg ∈ stringsSplit '.' k, seg ≠ [] ∧ '/' ∉ seg) →
      q.translateViperPath k =
        '/' :: List.intercalate ['/']
          (stringsSplit '/' q.parameterPrefix ++ stringsSplit '.' k) := by
    intro q k hp hk
    rw [translateViperPath_eq, joinedForm_prefix_key _ _ (stringsSplit_no_sep '/' _)
      (hK k hk) (stringsSplit_ne_nil _ _), cleanStack_plain _ hp]
  have hsl : ∀ (q : ParameterViper) (k : GoString),
      (∀ seg ∈ stringsSplit '.' k, seg ≠ [] ∧ '/' ∉ seg) →
      ∀ x ∈ stringsSplit '/' q.parameterPrefix ++ stringsSplit '.' k, '/' ∉ x := by
    intro q k hk x hx
    rcases List.mem_append.1 hx with hx | hx
    · exact stringsSplit_no_sep '/' _ x hx
    · exact (hk x hx).2
  have hiff : q1.translateViperPath k1 = q2.translateViperPath k2 ↔
      stringsSplit '/' q1.parameterPrefix ++ stringsSplit '.' k1 =
        stringsSplit '/' q2.parameterPrefix ++ stringsSplit '.' k2 := by
    rw [hform q1 k1 hp1 hk1, hform q2 k2 hp2 hk2]
    constructor
    · intro e
      exact intercalate_slash_inj _ _ (by simp [stringsSplit_ne_nil])
        (by simp [stringsSplit_ne_nil]) (hsl q1 k1 hk1) (hsl q2 k2 hk2) (List.cons.inj e).2
    · intro e
      rw [e]
  refine ⟨hiff, ?_⟩
  intro hlen hne hpath
  obtain ⟨e1, e2⟩ := List.append_inj (hiff.1 hpath) hlen
  apply hne
  have hpe : q1.parameterPrefix = q2.parameterPrefix := by
    rw [← intercalate_stringsSplit '/' q1.parameterPrefix, e1, intercalate_stringsSplit]
  have hke : k1 = k2 := by
    rw [← intercalate_stringsSplit '.' k1, e2, intercalate_stringsSplit]
  rw [hpe, hke]

/-- Two prefixes of one segment, for C11: `prefix` with `test.foo` and `other`
with `test.foo` translate to different paths. -/
theorem translateViperPath_injective_segments_witness :
    (ParameterViper.mk "prefix".toList (testParameterStore []) viper.New).translateViperPath
        "test.foo".toList ≠
      (ParameterViper.mk "other".toList (testParameterStore []) viper.New).translateViperPath
        "test.foo".toList :=
  (translateViperPath_injective_segments
    (ParameterViper.mk "prefix".toList (testParameterStore []) viper.New)
    (ParameterViper.mk "other".toList (testParameterStore []) viper.New)
    "test.foo".toList "test.foo".toList
    (by decide) (by decide) (by decide) (by decide)).2 (by decide) (by decide)

/-- C13: under one prefix, whatever its segments, two different keys whose
`.`-separated segments are all non-empty and hold no `/` translate to
different paths. -/
theorem translateViperPath_injective_key (p : ParameterViper) (k1 k2 : GoString)
    (hk1 : ∀ seg ∈ stringsSplit '.' k1, seg ≠ [] ∧ '/' ∉ seg)
    (hk2 : ∀ seg ∈ stringsSplit '.' k2, seg ≠ [] ∧ '/' ∉ seg)
    (hne : k1 ≠ k2) :
    p.translateViperPath k1 ≠ p.translateViperPath k2 := by
  have hK : ∀ k : GoString, (∀ seg ∈ stringsSplit '.' k, seg ≠ [] ∧ '/' ∉ seg) →
      ∀ x ∈ stringsSplit '.' k, x ≠ [] ∧ '/' ∉ x ∧ '.' ∉ x :=
    fun k h x hx => ⟨(h x hx).1, (h x hx).2, stringsSplit_no_sep '.' k x hx⟩
  have hsl : ∀ k : GoString, (∀ seg ∈ stringsSplit '.' k, seg ≠ [] ∧ '/' ∉ seg) →
      ∀ x ∈ cleanStack false (stringsSplit '/' p.parameterPrefix) ++ stringsSplit '.' k,
        '/' ∉ x := by
    intro k hk x hx
    rcases List.mem_append.1 hx with hx | hx
    · exact (cleanStack_segs false _ (stringsSplit_no_sep '/' _) x hx).2
    · exact (hk x hx).2
  intro hpath
  rw [translateViperPath_eq, translateViperPath_eq,
    joinedForm_prefix_key _ _ (stringsSplit_no_sep '/' _) (hK k1 hk1) (stringsSplit_ne_nil _ _),
    joinedForm_prefix_key _ _ (stringsSplit_no_sep '/' _) (hK k2 hk2) (stringsSplit_ne_nil _ _)]
    at hpath
  have hlist := intercalate_slash_inj _ _ (by simp [stringsSplit_ne_nil])
    (by simp [stringsSplit_ne_nil]) (hsl k1 hk1) (hsl k2 hk2) (List.cons.inj hpath).2
  have hseg := List.append_cancel_left hlist
  apply hne
  rw [← intercalate_stringsSplit '.' k1, hseg, intercalate_stringsSplit]

/-- A prefix with `..`, `.` and empty segments, for C13: under `a/../../x/.//`
the keys `test.foo` and `test.bar` translate to different paths. -/
theorem translateViperPath_injective_key_witness :
    (ParameterViper.mk "a/../../x/.//".toList (testParameterStore [])
        viper.New).translateViperPath "test.foo".toList ≠
      (ParameterViper.mk "a/../../x/.//".toList (testParameterStore [])
        viper.New).translateViperPath "test.bar".toList :=
  translateViperPath_injective_key
    (ParameterViper.mk "a/../../x/.//".toList (testParameterStore []) viper.New)
    "test.foo".toList "test.bar".toList (by decide) (by decide) (by decide)

/-- C14: for a prefix none of whose `/`-separated segments is `.` or `..` and
for every key, with `P` the string `/` followed by the non-empty segments of
the prefix joined with `/`: when the prefix has a non-empty segment the
translated path is `P` or begins with `P` followed by `/`; when it has none,
the translated path begins with `/`. -/
theorem translateViperPath_within_namespace (p : ParameterViper) (key : GoString)
    (hp : ∀ seg ∈ stringsSplit '/' p.parameterPrefix, seg ≠ ['.'] ∧ seg ≠ ['.', '.']) :
    ((∃ seg ∈ stringsSplit '/' p.parameterPrefix, seg ≠ []) →
      p.translateViperPath key =
          '/' :: List.intercalate ['/']
            ((stringsSplit '/' p.parameterPrefix).filter (fun seg => decide (seg ≠ []))) ∨
        ('/' :: List.intercalate ['/']
            ((stringsSplit '/' p.parameterPrefix).filter (fun seg => decide (seg ≠ [])))) ++
          ['/'] <+: p.translateViperPath key) ∧
    ((∀ seg ∈ stringsSplit '/' p.parameterPrefix, seg = []) →
      (p.translateViperPath key).head? = some '/') := by
  rw [translateViperPath_eq]
  refine ⟨?_, fun _ => rfl⟩
  intro hex
  obtain ⟨seg0, hseg0, hne0⟩ := hex
  have hSp := stringsSplit_no_sep '/' p.parameterPrefix
  have hpieces : (stringsSplit '/' p.parameterPrefix ++ stringsSplit '.' key).flatMap
      (stringsSplit '/') =
      stringsSplit '/' p.parameterPrefix ++
        (stringsSplit '.' key).flatMap (stringsSplit '/') := by
    rw [List.flatMap_append, flatMap_split_of_no_slash _ hSp]
  have hdots : ∀ x ∈ stringsSplit '/' p.parameterPrefix ++
      (stringsSplit '.' key).flatMap (stringsSplit '/'), x ≠ ['.'] ∧ x ≠ ['.', '.'] := by
    intro x hx
    rcases List.mem_append.1 hx with hx | hx
    · exact hp x hx
    · obtain ⟨s, hs, hxs⟩ := List.mem_flatMap.1 hx
      have hd : '.' ∉ x := fun hm =>
        stringsSplit_no_sep '.' key s hs (stringsSplit_subset '/' s x hxs _ hm)
      constructor
      · intro e; rw [e] at hd; simp at hd
      · intro e; rw [e] at hd; simp at hd
  have hSpf : (stringsSplit '/' p.parameterPrefix).flatten ≠ [] := by
    intro e
    exact hne0 ((flatten_eq_nil_iff _).1 e seg0 hseg0)
  have hf : (stringsSplit '/' p.parameterPrefix ++ stringsSplit '.' key).flatten ≠ [] := by
    rw [List.flatten_append]
    simp [hSpf]
  have hroot : decide ((stringsSplit '/' p.parameterPrefix ++
      stringsSplit '.' key).flatten.head? = some '/') = false := by
    rw [decide_eq_false_iff_not, List.flatten_append]
    intro e
    have hh : (stringsSplit '/' p.parameterPrefix).flatten.head? = some '/' := by
      cases hq : (stringsSplit '/' p.parameterPrefix).flatten with
      | nil => exact absurd hq hSpf
      | cons a t =>
        rw [hq] at e
        simpa using e
    obtain ⟨x, hx, _, hm⟩ := flatten_head_mem _ _ hh
    exact hSp x hx hm
  have hstack : cleanStack false ((stringsSplit '/' p.parameterPrefix ++
      stringsSplit '.' key).flatMap (stringsSplit '/')) =
      (stringsSplit '/' p.parameterPrefix).filter (fun seg => decide (seg ≠ [])) ++
        ((stringsSplit '.' key).flatMap (stringsSplit '/')).filter
          (fun seg => decide (seg ≠ [])) := by
    rw [hpieces]
    unfold cleanStack
    rw [foldl_stackElem_plain false _ _ hdots, List.filter_append]
    rfl
  have hsegs := cleanStack_segs false _
    (flatMap_split_no_slash (stringsSplit '/' p.parameterPrefix ++ stringsSplit '.' key))
  rw [hstack] at hsegs
  have hA : (stringsSplit '/' p.parameterPrefix).filter (fun seg => decide (seg ≠ [])) ≠ [] := by
    intro e
    have : seg0 ∈ (stringsSplit '/' p.parameterPrefix).filter
        (fun seg => decide (seg ≠ [])) := by
      rw [List.mem_filter]
      exact ⟨hseg0, by simpa using hne0⟩
    rw [e] at this
    simp at this
  have hrne := render_ne_nil false _ (fun e => hA (List.append_eq_nil.1 e).1) hsegs
  unfold joinedForm
  rw [if_neg hf]
  simp only [hroot, hstack]
  rw [if_neg hrne]
  simp only [render, Bool.false_eq_true, if_false, List.nil_append]
  by_cases hB : ((stringsSplit '.' key).flatMap (stringsSplit '/')).filter
      (fun seg => decide (seg ≠ [])) = []
  · left
    rw [hB, List.append_nil]
  · right
    rw [intercalate_append_of_ne_nil '/' _ _ hA hB]
    exact ⟨List.intercalate ['/'] (((stringsSplit '.' key).flatMap
      (stringsSplit '/')).filter (fun seg => decide (seg ≠ []))), by simp⟩

/-- A key that tries to climb out, for C14: under the prefix `/test/` the key
`/../etc` translates to `/test/etc`, and the empty key to `/test`. -/
theorem translateViperPath_within_namespace_witness :
    ((ParameterViper.mk "/test/".toList (testParameterStore []) viper.New).translateViperPath
        "/../etc".toList = "/test".toList ∨
      "/test".toList ++ ['/'] <+:
        (ParameterViper.mk "/test/".toList (testParameterStore [])
          viper.New).translateViperPath "/../etc".toList) ∧
    (ParameterViper.mk "/test/".toList (testParameterStore []) viper.New).translateViperPath
        "/../etc".toList = "/test/etc".toList ∧
    (ParameterViper.mk "/test/".toList (testParameterStore []) viper.New).translateViperPath
        [] = "/test".toList :=
  ⟨(translateViperPath_within_namespace
      (ParameterViper.mk "/test/".toList (testParameterStore []) viper.New)
      "/../etc".toList (by decide)).1 ⟨"test".toList, by decide, by decide⟩,
    by decide, by decide⟩

/-! ## Responses with absent parts -/

/-- C12, the claim as stated fails: with no error, an absent output makes
`getParamater` abort, and a present output with an absent parameter, or a
present parameter with an absent value, makes `GetString` and `GetStringSlice`
abort, each on a nil dereference. -/
theorem accessors_abort_counterexample :
    (ParameterViper.mk "prefix".toList (fun _ => (none, none)) viper.New).getParamater
        "/prefix/test/foo".toList = .error .nilDereference ∧
    (ParameterViper.mk "prefix".toList
        (testParameterStore [("/prefix/test/foo".toList, { Parameter := none, Err := none })])
        viper.New).GetString "test.foo".toList = .error .nilDereference ∧
    (ParameterViper.mk "prefix".toList
        (testParameterStore [("/prefix/test/foo".toList, { Parameter := none, Err := none })])
        viper.New).GetStringSlice "test.foo".toList = .error .nilDereference ∧
    (ParameterViper.mk "prefix".toList
        (testParameterStore [("/prefix/test/foo".toList,
          { Parameter := some { Value := none }, Err := none })])
        viper.New).GetString "test.foo".toList = .error .nilDereference := by
  decide

/-- C12, amended: `getParamater` returns a classified outcome for every
response but the one with neither an output nor an error; `GetString` and
`GetStringSlice` return a plain value exactly for the responses that carry an
error and for those that carry no error and a present output holding a
present parameter with a present value. -/
theorem accessors_return_iff (p : ParameterViper) (path key : GoString) :
    ((∃ r, p.getParamater path = .ok r) ↔
      p.parameterStore { Name := path, WithDecryption := true } ≠ (none, none)) ∧
    ((∃ v, p.GetString key = .ok v) ↔
      ((p.parameterStore { Name := p.translateViperPath key, WithDecryption := true }).2 ≠
          none ∨
        ∃ v, p.parameterStore { Name := p.translateViperPath key, WithDecryption := true } =
          (some { Parameter := some { Value := some v } }, none))) ∧
    ((∃ l, p.GetStringSlice key = .ok l) ↔
      ((p.parameterStore { Name := p.translateViperPath key, WithDecryption := true }).2 ≠
          none ∨
        ∃ v, p.parameterStore { Name := p.translateViperPath key, WithDecryption := true } =
          (some { Parameter := some { Value := some v } }, none))) := by
  have hget : ∀ (q : GoString) (out : Option ssm.GetParameterOutput) (err : RemoteError),
      p.parameterStore { Name := q, WithDecryption := true } = (out, some err) →
      ∃ e, p.getParamater q = .ok (none, some e) := by
    intro q out err h
    simp only [ParameterViper.getParamater, h]
    cases err.code with
    | none => exact ⟨_, rfl⟩
    | some code =>
      by_cases hc : code = ssm.ErrCodeInternalServerError
      · exact ⟨_, if_pos hc⟩
      · exact ⟨_, if_neg hc⟩
  refine ⟨?_, ?_, ?_⟩
  · cases h : p.parameterStore { Name := path, WithDecryption := true } with
    | mk out err =>
      cases err with
      | some e =>
        obtain ⟨e2, he2⟩ := hget path out e h
        simp [he2]
      | none =>
        cases out with
        | none => simp [ParameterViper.getParamater, h]
        | some o => simp [ParameterViper.getParamater, h]
  · cases h : p.parameterStore { Name := p.translateViperPath key, WithDecryption := true } with
    | mk out err =>
      cases err with
      | some e =>
        obtain ⟨e2, he2⟩ := hget _ out e h
        simp [ParameterViper.GetString, he2]
      | none =>
        cases out with
        | none => simp [ParameterViper.GetString, ParameterViper.getParamater, h]
        | some o =>
          obtain ⟨param⟩ := o
          cases param with
          | none => simp [ParameterViper.GetString, ParameterViper.getParamater, h, derefValue]
          | some pr =>
            obtain ⟨val⟩ := pr
            cases val with
            | none =>
              simp [ParameterViper.GetString, ParameterViper.getParamater, h, derefValue]
            | some v =>
              simp [ParameterViper.GetString, ParameterViper.getParamater, h, derefValue]
  · cases h : p.parameterStore { Name := p.translateViperPath key, WithDecryption := true } with
    | mk out err =>
      cases err with
      | some e =>
        obtain ⟨e2, he2⟩ := hget _ out e h
        simp [ParameterViper.GetStringSlice, he2]
      | none =>
        cases out with
        | none => simp [ParameterViper.GetStringSlice, ParameterViper.getParamater, h]
        | some o =>
          obtain ⟨param⟩ := o
          cases param with
          | none =>
            simp [ParameterViper.GetStringSlice, ParameterViper.getParamater, h, derefValue]
          | some pr =>
            obtain ⟨val⟩ := pr
            cases val with
            | none =>
              simp [ParameterViper.GetStringSlice, ParameterViper.getParamater, h, derefValue]
            | some v =>
              simp [ParameterViper.GetStringSlice, ParameterViper.getParamater, h, derefValue]

/-! ## Leading and trailing separators of the translated path -/

theorem mem_intercalate (sep : Char) (L : List GoString) (c : Char)
    (h : c ∈ List.intercalate [sep] L) : c = sep ∨ ∃ x ∈ L, c ∈ x := by
  induction L with
  | nil => simp [List.intercalate] at h
  | cons a L ih =>
    by_cases hL : L = []
    · subst hL
      rw [intercalate_singleton] at h
      exact Or.inr ⟨a, List.mem_cons_self _ _, h⟩
    · rw [intercalate_cons_of_ne_nil sep a hL] at h
      rcases List.mem_append.1 h with h | h
      · exact Or.inr ⟨a, List.mem_cons_self _ _, h⟩
      · rcases List.mem_cons.1 h with h | h
        · exact Or.inl h
        · rcases ih h with h | ⟨x, hx, hc⟩
          · exact Or.inl h
          · exact Or.inr ⟨x, List.mem_cons_of_mem _ hx, hc⟩

theorem key_pieces_empty_iff (key : GoString) :
    (∀ piece ∈ (stringsSplit '.' key).flatMap (stringsSplit '/'), piece = []) ↔
      ∀ c ∈ key, c = '.' ∨ c = '/' := by
  constructor
  · intro h c hc
    rw [← intercalate_stringsSplit '.' key] at hc
    rcases mem_intercalate '.' _ c hc with e | ⟨s, hs, hcs⟩
    · exact Or.inl e
    · rw [← intercalate_stringsSplit '/' s] at hcs
      rcases mem_intercalate '/' _ c hcs with e | ⟨piece, hp, hcp⟩
      · exact Or.inr e
      · have := h piece (List.mem_flatMap.2 ⟨s, hs, hp⟩)
        rw [this] at hcp
        simp at hcp
  · intro h piece hp
    obtain ⟨s, hs, hps⟩ := List.mem_flatMap.1 hp
    cases piece with
    | nil => rfl
    | cons c t =>
      exfalso
      have hcs : c ∈ s := stringsSplit_subset '/' s _ hps c (List.mem_cons_self _ _)
      have hck : c ∈ key := stringsSplit_subset '.' key s hs c hcs
      rcases h c hck with e | e
      · rw [e] at hcs
        exact stringsSplit_no_sep '.' key s hs hcs
      · have := stringsSplit_no_sep '/' s _ hps
        rw [e] at this
        exact this (List.mem_cons_self _ _)

theorem key_pieces_no_dots (key : GoString) :
    ∀ x ∈ (stringsSplit '.' key).flatMap (stringsSplit '/'), x ≠ ['.'] ∧ x ≠ ['.', '.'] := by
  intro x hx
  obtain ⟨s, hs, hxs⟩ := List.mem_flatMap.1 hx
  have hd : '.' ∉ x := fun hm =>
    stringsSplit_no_sep '.' key s hs (stringsSplit_subset '/' s x hxs _ hm)
  constructor
  · intro e; rw [e] at hd; simp at hd
  · intro e; rw [e] at hd; simp at hd

theorem flatMap_split_of_all_nil (L : List GoString) (h : ∀ x ∈ L, x = []) :
    ∀ x ∈ L.flatMap (stringsSplit '/'), x = [] := by
  intro x hx
  obtain ⟨s, hs, hxs⟩ := List.mem_flatMap.1 hx
  rw [h s hs, stringsSplit_nil] at hxs
  simpa using hxs

/-- With no non-empty prefix segment, what `path.Clean` keeps is the non-empty
pieces of the key. -/
theorem cleanStack_of_empty_segments (rooted : Bool) (Sp : List GoString) (key : GoString)
    (hSp : ∀ x ∈ Sp, x = []) :
    cleanStack rooted ((Sp ++ stringsSplit '.' key).flatMap (stringsSplit '/')) =
      ((stringsSplit '.' key).flatMap (stringsSplit '/')).filter
        (fun s => decide (s ≠ [])) := by
  have hnil := flatMap_split_of_all_nil Sp hSp
  have hdots : ∀ x ∈ (Sp ++ stringsSplit '.' key).flatMap (stringsSplit '/'),
      x ≠ ['.'] ∧ x ≠ ['.', '.'] := by
    intro x hx
    rw [List.flatMap_append] at hx
    rcases List.mem_append.1 hx with hx | hx
    · rw [hnil x hx]; simp
    · exact key_pieces_no_dots key x hx
  have hfilter : (Sp.flatMap (stringsSplit '/')).filter (fun s => decide (s ≠ [])) = [] := by
    rw [List.filter_eq_nil_iff]
    intro x hx
    simp [hnil x hx]
  unfold cleanStack
  rw [foldl_stackElem_plain rooted _ _ hdots, List.flatMap_append, List.filter_append, hfilter]
  rfl

theorem joinedForm_of_flatten_ne_nil (parts : List GoString) (h : parts.flatten ≠ []) :
    joinedForm parts =
      if render (decide (parts.flatten.head? = some '/'))
          (cleanStack (decide (parts.flatten.head? = some '/'))
            (parts.flatMap (stringsSplit '/'))) = []
      then ['.']
      else render (decide (parts.flatten.head? = some '/'))
          (cleanStack (decide (parts.flatten.head? = some '/'))
            (parts.flatMap (stringsSplit '/'))) := by
  unfold joinedForm
  rw [if_neg h]

/-- A joined form that ends with `/` is the rooted one with nothing kept. -/
theorem joinedForm_getLast_slash (parts : List GoString) (h : parts.flatten ≠ [])
    (hl : (joinedForm parts).getLast? = some '/') :
    parts.flatten.head? = some '/' ∧
      cleanStack true (parts.flatMap (stringsSplit '/')) = [] := by
  rw [joinedForm_of_flatten_ne_nil parts h] at hl
  generalize hr : decide (parts.flatten.head? = some '/') = rooted at hl
  have hsegs := cleanStack_segs rooted _ (flatMap_split_no_slash parts)
  by_cases ho : render rooted (cleanStack rooted (parts.flatMap (stringsSplit '/'))) = []
  · rw [if_pos ho] at hl
    simp at hl
  · rw [if_neg ho] at hl
    by_cases hst : cleanStack rooted (parts.flatMap (stringsSplit '/')) = []
    · rw [hst, render_nil] at ho
      cases rooted with
      | false => simp at ho
      | true => exact ⟨by simpa using hr, hst⟩
    · exact absurd hl (render_getLast rooted _ hst hsegs)

theorem joinedForm_ne_nil (parts : List GoString) (h : parts.flatten ≠ []) :
    joinedForm parts ≠ [] := by
  rw [joinedForm_of_flatten_ne_nil parts h]
  split
  · simp
  · assumption

theorem joinedForm_eq_nil (parts : List GoString) (h : parts.flatten = []) :
    joinedForm parts = [] := by
  unfold joinedForm
  rw [if_pos h]

theorem joinedForm_head_slash_iff (parts : List GoString) :
    (joinedForm parts).head? = some '/' ↔ parts.flatten.head? = some '/' := by
  by_cases hf : parts.flatten = []
  · rw [joinedForm_eq_nil parts hf, hf]
  · constructor
    · intro hJ
      rcases joinedForm_cases parts with e | e | ⟨stack, hs, e, _⟩
      · rw [e] at hJ; simp at hJ
      · rw [e] at hJ; simp at hJ
      · by_contra hn
        rw [e, decide_eq_false hn] at hJ
        exact render_false_head stack hs hJ
    · intro hh
      rw [joinedForm_of_flatten_ne_nil parts hf, decide_eq_true hh]
      simp [render]

theorem flatten_append_head_of_nil (Sp Sk : List GoString) (h : ∀ x ∈ Sp, x = []) :
    (Sp ++ Sk).flatten = Sk.flatten := by
  rw [List.flatten_append, (flatten_eq_nil_iff Sp).2 h, List.nil_append]

theorem prefix_segments_nil_of_head (pfx : GoString) (Sk : List GoString)
    (h : (stringsSplit '/' pfx ++ Sk).flatten.head? = some '/') :
    ∀ seg ∈ stringsSplit '/' pfx, seg = [] := by
  rw [List.flatten_append] at h
  rw [← flatten_eq_nil_iff]
  by_contra hne
  have hh : (stringsSplit '/' pfx).flatten.head? = some '/' := by
    cases hq : (stringsSplit '/' pfx).flatten with
    | nil => exact absurd hq hne
    | cons a t =>
      rw [hq] at h
      simpa using h
  obtain ⟨x, hx, _, hm⟩ := flatten_head_mem _ _ hh
  exact stringsSplit_no_sep '/' _ x hx hm

/-- C7, amended: for every prefix and every key the translated path begins
with `/`.  Its second character is `/` exactly when the prefix has no
non-empty segment and the first non-empty segment of the key begins with `/`
(the key then holds a `/`); it ends with `/` exactly when the prefix has no
non-empty segment and the key holds only `.` and `/`, and it is then `/` or
`//`.  So for every prefix with a non-empty segment the path begins with
exactly one `/` and does not end with `/`. -/
theorem translateViperPath_slashes (p : ParameterViper) (key : GoString) :
    (p.translateViperPath key).head? = some '/' ∧
    ((p.translateViperPath key)[1]? = some '/' ↔
      (∀ seg ∈ stringsSplit '/' p.parameterPrefix, seg = []) ∧
        (stringsSplit '.' key).flatten.head? = some '/') ∧
    ((p.translateViperPath key)[1]? = some '/' → '/' ∈ key) ∧
    ((p.translateViperPath key).getLast? = some '/' ↔
      (∀ seg ∈ stringsSplit '/' p.parameterPrefix, seg = []) ∧
        ∀ c ∈ key, c = '.' ∨ c = '/') ∧
    ((p.translateViperPath key).getLast? = some '/' →
      p.translateViperPath key = ['/'] ∨ p.translateViperPath key = ['/', '/']) ∧
    ((∃ seg ∈ stringsSplit '/' p.parameterPrefix, seg ≠ []) →
      (p.translateViperPath key)[1]? ≠ some '/' ∧
        (p.translateViperPath key).getLast? ≠ some '/') := by
  have hold := slashes_only_if p key
  have hsecond : (p.translateViperPath key)[1]? = some '/' ↔
      (∀ seg ∈ stringsSplit '/' p.parameterPrefix, seg = []) ∧
        (stringsSplit '.' key).flatten.head? = some '/' := by
    constructor
    · intro h
      exact ⟨(hold.2.1 h).1, (hold.2.1 h).2.1⟩
    · intro ⟨hA, hH⟩
      rw [translateViperPath_eq]
      have : (joinedForm (stringsSplit '/' p.parameterPrefix ++
          stringsSplit '.' key)).head? = some '/' := by
        rw [joinedForm_head_slash_iff, flatten_append_head_of_nil _ _ hA]
        exact hH
      rw [List.head?_eq_getElem?] at this
      simpa using this
  have hlast : (p.translateViperPath key).getLast? = some '/' ↔
      (∀ seg ∈ stringsSplit '/' p.parameterPrefix, seg = []) ∧
        ∀ c ∈ key, c = '.' ∨ c = '/' := by
    rw [translateViperPath_eq]
    by_cases hf : (stringsSplit '/' p.parameterPrefix ++ stringsSplit '.' key).flatten = []
    · rw [joinedForm_eq_nil _ hf]
      have hall := (flatten_eq_nil_iff _).1 hf
      have hA : ∀ seg ∈ stringsSplit '/' p.parameterPrefix, seg = [] :=
        fun x hx => hall x (List.mem_append_left _ hx)
      have hK : ∀ seg ∈ stringsSplit '.' key, seg = [] :=
        fun x hx => hall x (List.mem_append_right _ hx)
      constructor
      · intro _
        exact ⟨hA, (key_pieces_empty_iff key).1 (flatMap_split_of_all_nil _ hK)⟩
      · intro _
        rfl
    · have hJne := joinedForm_ne_nil _ hf
      have hget : ('/' :: joinedForm (stringsSplit '/' p.parameterPrefix ++
          stringsSplit '.' key)).getLast? =
          (joinedForm (stringsSplit '/' p.parameterPrefix ++
            stringsSplit '.' key)).getLast? := by
        cases hq : joinedForm (stringsSplit '/' p.parameterPrefix ++ stringsSplit '.' key) with
        | nil => exact absurd hq hJne
        | cons a t => rw [List.getLast?_cons_cons]
      rw [hget]
      constructor
      · intro hl
        obtain ⟨hhead, hstack⟩ := joinedForm_getLast_slash _ hf hl
        have hA := prefix_segments_nil_of_head _ _ hhead
        refine ⟨hA, (key_pieces_empty_iff key).1 ?_⟩
        rw [cleanStack_of_empty_segments true _ key hA, List.filter_eq_nil_iff] at hstack
        intro piece hp
        simpa using hstack piece hp
      · intro ⟨hA, hK⟩
        have hpieces := (key_pieces_empty_iff key).2 hK
        have hflat := flatten_append_head_of_nil (stringsSplit '/' p.parameterPrefix)
          (stringsSplit '.' key) hA
        have hhead : (stringsSplit '/' p.parameterPrefix ++
            stringsSplit '.' key).flatten.head? = some '/' := by
          rw [hflat] at hf ⊢
          cases hq : (stringsSplit '.' key).flatten with
          | nil => exact absurd hq hf
          | cons c t =>
            have hc : (stringsSplit '.' key).flatten.head? = some c := by rw [hq]; rfl
            obtain ⟨s, hs, _, hcs⟩ := flatten_head_mem _ c hc
            rcases hK c (stringsSplit_subset '.' key s hs c hcs) with e | e
            · rw [e] at hcs
              exact absurd hcs (stringsSplit_no_sep '.' key s hs)
            · rw [e]; rfl
        have hstack : cleanStack true ((stringsSplit '/' p.parameterPrefix ++
            stringsSplit '.' key).flatMap (stringsSplit '/')) = [] := by
          rw [cleanStack_of_empty_segments true _ key hA, List.filter_eq_nil_iff]
          intro piece hp
          simp [hpieces piece hp]
        rw [joinedForm_of_flatten_ne_nil _ hf, decide_eq_true hhead, hstack]
        simp [render, List.intercalate]
  refine ⟨hold.1, hsecond, fun h => (hold.2.1 h).2.2, hlast, hold.2.2, ?_⟩
  intro ⟨seg, hseg, hne⟩
  constructor
  · intro h
    exact hne ((hsecond.1 h).1 seg hseg)
  · intro h
    exact hne ((hlast.1 h).1 seg hseg)

end Config
